import Mathlib

/-!
# SingleLinkedList (single-linked-list.h): a shallow embedding

The container is a chain of heap nodes hanging off a sentinel node `head_`
that is embedded in the list object.  Pointers, object identity and node
ownership all matter for what the member functions do, so the embedding keeps
an explicit memory:

* an address is a natural number, a `Node*` is an `Option Nat`, `nullptr` is
  `none`;
* `Mem.node` holds every live `Node` object, the sentinels `head_` of the list
  objects as well as the nodes made by `new Node(...)`;
* a list object is identified with the address of its `head_` (its first
  member), and `Mem.size_` holds its field `size_`;
* `new` hands out the next unused address `Mem.brk`; a deleted node is gone
  from `Mem.node`, so a use after `delete` shows as undefined behaviour;
* `Mem.quota` is the number of fallible steps (`new Node(...)`, which
  allocates and copies the element, or filling a `std::vector`) that succeed
  before the next one throws.

`size_t` is modelled by `Nat`: `size_` counts live nodes, each of which
occupies memory, so it cannot wrap around.  The `const` and non-`const`
iterator types are the same type here.  Loops that walk a chain take a `fuel`
argument, since nothing in the code bounds them on a cyclic chain.
-/

namespace SingleLinkedList

/-- The struct `Node`: an element and the link to the next node. -/
structure Node (α : Type) where
  value : α
  next_node : Option Nat

/-- The memory the lists live in. -/
structure Mem (α : Type) where
  /-- the live `Node` objects: sentinels and nodes made by `new` -/
  node : Nat → Option (Node α)
  /-- the field `size_` of the list object at an address -/
  size_ : Nat → Nat
  /-- the next address `new` (and object storage) hands out -/
  brk : Nat
  /-- how many fallible steps succeed before the next one throws -/
  quota : Nat

/-- How a call ends: it returns `r`, it throws with the memory as it is when
the exception leaves the function, it runs into undefined behaviour (a failed
`assert`, a null or dangling dereference), or it runs out of fuel. -/
inductive Res (σ β : Type) where
  | ret (r : β)
  | throw (s : σ)
  | ub
  | timeout

/-- The class `BasicIterator`: a wrapper around a node pointer. -/
structure BasicIterator where
  node_ : Option Nat
deriving DecidableEq

variable {α : Type}

/-- The result of a call with its returned value mapped through `f`. -/
def Res.map {σ β γ : Type} (f : β → γ) : Res σ β → Res σ γ
  | .ret r => .ret (f r)
  | .throw s => .throw s
  | .ub => .ub
  | .timeout => .timeout

/-! ## Primitive memory operations -/

/-- The expression `new Node(val, next)`: throws when the quota is used up,
leaving the memory as it is; otherwise the node sits at the address `brk`. -/
def new_Node (m : Mem α) (val : α) (next : Option Nat) : Res (Mem α) (Mem α × Nat) :=
  match m.quota with
  | 0 => .throw m
  | q + 1 =>
    .ret ({ m with
            node := fun a => if a = m.brk then some ⟨val, next⟩ else m.node a
            brk := m.brk + 1
            quota := q }, m.brk)

/-- The statement `delete p`. -/
def delete_Node (m : Mem α) (p : Nat) : Mem α :=
  { m with node := fun a => if a = p then none else m.node a }

/-- The store `p->next_node = q`; `none` when `p` is not a live node. -/
def set_next_node (m : Mem α) (p : Nat) (q : Option Nat) : Option (Mem α) :=
  match m.node p with
  | none => none
  | some n =>
    some { m with node := fun a => if a = p then some { n with next_node := q } else m.node a }

/-- The store `size_ = k` in the list object `this`. -/
def set_size (m : Mem α) (this : Nat) (k : Nat) : Mem α :=
  { m with size_ := fun a => if a = this then k else m.size_ a }

/-! ## Iterators -/

/-- `BasicIterator::operator==`: the two iterators hold the same pointer. -/
def BasicIterator.eq (lhs rhs : BasicIterator) : Bool :=
  (lhs.node_ == none && rhs.node_ == none) || lhs.node_ == rhs.node_

/-- `BasicIterator::operator*`: `assert(node_ != nullptr); return node_->value`. -/
def BasicIterator.deref (m : Mem α) (it : BasicIterator) : Res (Mem α) α :=
  match it.node_ with
  | none => .ub
  | some p =>
    match m.node p with
    | none => .ub
    | some n => .ret n.value

/-- `BasicIterator::operator++`: `assert(node_ != nullptr); node_ = node_->next_node`. -/
def BasicIterator.incr (m : Mem α) (it : BasicIterator) : Res (Mem α) BasicIterator :=
  match it.node_ with
  | none => .ub
  | some p =>
    match m.node p with
    | none => .ub
    | some n => .ret ⟨n.next_node⟩

/-! ## The list -/

/-- The constructor `SingleLinkedList() : head_{}, size_{0}`, run on fresh
storage for the object: the sentinel has a value-initialised element and a
null link. -/
def ctor_default [Inhabited α] (m : Mem α) : Mem α × Nat :=
  ({ m with
     node := fun a => if a = m.brk then some ⟨default, none⟩ else m.node a
     size_ := fun a => if a = m.brk then 0 else m.size_ a
     brk := m.brk + 1 }, m.brk)

/-- `GetSize`: `return size_`. -/
def GetSize (m : Mem α) (this : Nat) : Nat :=
  m.size_ this

/-- `IsEmpty`: `return size_ == 0`. -/
def IsEmpty (m : Mem α) (this : Nat) : Bool :=
  m.size_ this == 0

/-- `begin` / `cbegin`: `Iterator{head_.next_node}`. -/
def begin (m : Mem α) (this : Nat) : Res (Mem α) BasicIterator :=
  match m.node this with
  | none => .ub
  | some head_ => .ret ⟨head_.next_node⟩

/-- `end` / `cend`: `Iterator{nullptr}`. -/
def end_ : BasicIterator :=
  ⟨none⟩

/-- `before_begin` / `cbefore_begin`: `Iterator{&head_}`. -/
def before_begin (this : Nat) : BasicIterator :=
  ⟨some this⟩

/-- `PushFront`: `head_.next_node = new Node(value, head_.next_node); ++size_`. -/
def PushFront (m : Mem α) (this : Nat) (value : α) : Res (Mem α) (Mem α) :=
  match m.node this with
  | none => .ub
  | some head_ =>
    match new_Node m value head_.next_node with
    | .ret (m1, new_node) =>
      match set_next_node m1 this (some new_node) with
      | none => .ub
      | some m2 => .ret (set_size m2 this (m2.size_ this + 1))
    | .throw s => .throw s
    | .ub => .ub
    | .timeout => .timeout

/-- The loop of `Clear`: `node` walks the chain, every node is read for its
link and then deleted. -/
def Clear_loop : Nat → Mem α → Option Nat → Res (Mem α) (Mem α)
  | _, m, none => .ret m
  | 0, _, some _ => .timeout
  | fuel + 1, m, some for_delete =>
    match m.node for_delete with
    | none => .ub
    | some n => Clear_loop fuel (delete_Node m for_delete) n.next_node

/-- `Clear`: delete every node, then `head_.next_node = nullptr; size_ = 0`. -/
def Clear (fuel : Nat) (m : Mem α) (this : Nat) : Res (Mem α) (Mem α) :=
  match m.node this with
  | none => .ub
  | some head_ =>
    match Clear_loop fuel m head_.next_node with
    | .ret m1 =>
      match set_next_node m1 this none with
      | none => .ub
      | some m2 => .ret (set_size m2 this 0)
    | r => r

/-- The destructor `~SingleLinkedList`: `Clear()`, after which the object,
its sentinel included, is gone. -/
def dtor (fuel : Nat) (m : Mem α) (this : Nat) : Res (Mem α) (Mem α) :=
  match Clear fuel m this with
  | .ret m1 => .ret (delete_Node m1 this)
  | r => r

/-- The loop of the range constructor: `PushFront(*ptr)` for every element of
the source range, in the order of the range. -/
def ctor_range_loop (m : Mem α) (this : Nat) : List α → Res (Mem α) (Mem α)
  | [] => .ret m
  | x :: rest =>
    match PushFront m this x with
    | .ret m1 => ctor_range_loop m1 this rest
    | r => r

/-- The constructor `SingleLinkedList(T begin, T end) : SingleLinkedList()`,
the source range being given by the list of its elements.  It delegates to the
default constructor, so when its body throws, the object is complete and its
destructor runs before the exception leaves. -/
def ctor_range [Inhabited α] (fuel : Nat) (m : Mem α) (src : List α) :
    Res (Mem α) (Mem α × Nat) :=
  match ctor_default m with
  | (m0, this) =>
    match ctor_range_loop m0 this src with
    | .ret m1 => .ret (m1, this)
    | .throw s =>
      match dtor fuel s this with
      | .ret s1 => .throw s1
      | .throw s1 => .throw s1
      | .ub => .ub
      | .timeout => .timeout
    | .ub => .ub
    | .timeout => .timeout

/-- The constructor `SingleLinkedList(std::initializer_list<Type> values)`:
the range constructor on `rbegin(values)`, `rend(values)`. -/
def ctor_initializer_list [Inhabited α] (fuel : Nat) (m : Mem α) (values : List α) :
    Res (Mem α) (Mem α × Nat) :=
  ctor_range fuel m values.reverse

/-- Reading a range of list iterators from `first` up to `last`, as
`std::vector`'s range constructor and a client's
`for (it = begin(); it != end(); ++it)` do: the elements `*it` in order. -/
def read_range : Nat → Mem α → BasicIterator → BasicIterator → Res (Mem α) (List α)
  | 0, _, first, last => if first.eq last then .ret [] else .timeout
  | fuel + 1, m, first, last =>
    if first.eq last then .ret []
    else
      match first.deref m with
      | .ret v =>
        match first.incr m with
        | .ret next =>
          match read_range fuel m next last with
          | .ret vs => .ret (v :: vs)
          | r => r
        | .throw s => .throw s
        | .ub => .ub
        | .timeout => .timeout
      | .throw s => .throw s
      | .ub => .ub
      | .timeout => .timeout

/-- The declaration `vector<Type> buffer(first, last)`: the elements of the
range are copied into a vector, a step that may throw and then leaves the
memory as it is. -/
def vector_ctor (fuel : Nat) (m : Mem α) (first last : BasicIterator) :
    Res (Mem α) (Mem α × List α) :=
  match read_range fuel m first last with
  | .ret vs =>
    match m.quota with
    | 0 => .throw m
    | q + 1 => .ret ({ m with quota := q }, vs)
  | .throw s => .throw s
  | .ub => .ub
  | .timeout => .timeout

/-- `swap`: `std::swap(head_.next_node, other.head_.next_node);
std::swap(size_, other.size_)`. -/
def swap (m : Mem α) (this other : Nat) : Res (Mem α) (Mem α) :=
  match m.node this, m.node other with
  | some h, some oh =>
    match set_next_node m this oh.next_node with
    | none => .ub
    | some m1 =>
      match set_next_node m1 other h.next_node with
      | none => .ub
      | some m2 =>
        .ret (set_size (set_size m2 this (m.size_ other)) other (m.size_ this))
  | _, _ => .ub

/-- The non-member function `swap(lhs, rhs)`: `lhs.swap(rhs)`. -/
def swap_free (m : Mem α) (lhs rhs : Nat) : Res (Mem α) (Mem α) :=
  swap m lhs rhs

/-- The copy assignment `operator=`.  The `catch (...) { throw; }` rethrows,
and on the way out `tmp` (when it exists) is destroyed, as it is on the normal
path at the end of the `try` block. -/
def operator_assign [Inhabited α] (fuel : Nat) (m : Mem α) (this other : Nat) :
    Res (Mem α) (Mem α) :=
  if this = other then .ret m
  else if m.size_ other = 0 then Clear fuel m this
  else
    match begin m other with
    | .ret first =>
      match vector_ctor fuel m first end_ with
      | .ret (m1, buffer) =>
        match ctor_range fuel m1 buffer.reverse with
        | .ret (m2, tmp) =>
          match swap m2 this tmp with
          | .ret m3 => dtor fuel m3 tmp
          | r => r
        | .throw s => .throw s
        | .ub => .ub
        | .timeout => .timeout
      | .throw s => .throw s
      | .ub => .ub
      | .timeout => .timeout
    | .throw s => .throw s
    | .ub => .ub
    | .timeout => .timeout

/-- The copy constructor: `SingleLinkedList()` on fresh storage, the `assert`
on the empty state, then `*this = other`; it delegates, so the destructor runs
when the assignment throws. -/
def ctor_copy [Inhabited α] (fuel : Nat) (m : Mem α) (other : Nat) :
    Res (Mem α) (Mem α × Nat) :=
  match ctor_default m with
  | (m0, this) =>
    if m0.size_ this = 0 ∧ (m0.node this).map Node.next_node = some none then
      match operator_assign fuel m0 this other with
      | .ret m1 => .ret (m1, this)
      | .throw s =>
        match dtor fuel s this with
        | .ret s1 => .throw s1
        | .throw s1 => .throw s1
        | .ub => .ub
        | .timeout => .timeout
      | .ub => .ub
      | .timeout => .timeout
    else .ub

/-! ## Comparisons -/

/-- `IsEqualByRefs`: equal sizes and the same object
(`this == &other || &head_ == &other.head_`; a list object and its first
member `head_` have the same address). -/
def IsEqualByRefs (m : Mem α) (this other : Nat) : Bool :=
  if m.size_ this ≠ m.size_ other then false
  else this == other || this == other

/-- The three-iterator `std::equal(first1, last1, first2)`:
`for (; first1 != last1; ++first1, ++first2) if (!(*first1 == *first2)) return false;`
then `return true`.  The second range has no end of its own. -/
def std_equal [DecidableEq α] :
    Nat → Mem α → BasicIterator → BasicIterator → BasicIterator → Res (Mem α) Bool
  | 0, _, first1, last1, _ => if first1.eq last1 then .ret true else .timeout
  | fuel + 1, m, first1, last1, first2 =>
    if first1.eq last1 then .ret true
    else
      match first1.deref m, first2.deref m with
      | .ret v1, .ret v2 =>
        if v1 = v2 then
          match first1.incr m, first2.incr m with
          | .ret next1, .ret next2 => std_equal fuel m next1 last1 next2
          | _, _ => .ub
        else .ret false
      | _, _ => .ub

/-- `operator==`: `IsEqualByRefs(other)`, else
`std::equal(this->begin(), this->end(), other.begin())`. -/
def operator_eq [DecidableEq α] (fuel : Nat) (m : Mem α) (this other : Nat) :
    Res (Mem α) Bool :=
  if IsEqualByRefs m this other then .ret true
  else
    match begin m this, begin m other with
    | .ret first1, .ret first2 => std_equal fuel m first1 end_ first2
    | _, _ => .ub

/-- `operator!=`: `!(*this == other)`. -/
def operator_ne [DecidableEq α] (fuel : Nat) (m : Mem α) (this other : Nat) :
    Res (Mem α) Bool :=
  match operator_eq fuel m this other with
  | .ret b => .ret (!b)
  | r => r

/-- The loop of `IsSuccessForAnyCrossItems`: it runs while
`ptr != this->end() && ptr_other != other.end()` and returns `true` at the
first pair the predicate accepts, `false` when the loop ends. -/
def IsSuccessForAnyCrossItems_loop (predicate : α → α → Bool) :
    Nat → Mem α → BasicIterator → BasicIterator → Res (Mem α) Bool
  | 0, _, ptr, ptr_other =>
    if !ptr.eq end_ && !ptr_other.eq end_ then .timeout else .ret false
  | fuel + 1, m, ptr, ptr_other =>
    if !ptr.eq end_ && !ptr_other.eq end_ then
      match ptr.deref m, ptr_other.deref m with
      | .ret val, .ret val_other =>
        if predicate val val_other then .ret true
        else
          match ptr.incr m, ptr_other.incr m with
          | .ret next, .ret next_other =>
            IsSuccessForAnyCrossItems_loop predicate fuel m next next_other
          | _, _ => .ub
      | _, _ => .ub
    else .ret false

/-- `IsSuccessForAnyCrossItems`: the loop from `this->begin()` and
`other.begin()`. -/
def IsSuccessForAnyCrossItems (fuel : Nat) (m : Mem α) (this other : Nat)
    (predicate : α → α → Bool) : Res (Mem α) Bool :=
  match begin m this, begin m other with
  | .ret ptr, .ret ptr_other => IsSuccessForAnyCrossItems_loop predicate fuel m ptr ptr_other
  | _, _ => .ub

/-- `operator<`: `false` for the same object; for equal sizes the negation of
"some pair has `val >= val_other`"; else `size_ < other.size_`. -/
def operator_lt [LE α] [DecidableRel (fun a b : α => a ≤ b)] (fuel : Nat)
    (m : Mem α) (this other : Nat) : Res (Mem α) Bool :=
  if IsEqualByRefs m this other then .ret false
  else if m.size_ this = m.size_ other then
    match IsSuccessForAnyCrossItems fuel m this other
        (fun val val_other => decide (val ≥ val_other)) with
    | .ret b => .ret (!b)
    | r => r
  else .ret (decide (m.size_ this < m.size_ other))

/-- `operator<=`: `true` for the same object; for equal sizes the negation of
"some pair has `val > val_other`"; else `size_ < other.size_`. -/
def operator_le [LT α] [DecidableRel (fun a b : α => a < b)] (fuel : Nat)
    (m : Mem α) (this other : Nat) : Res (Mem α) Bool :=
  if IsEqualByRefs m this other then .ret true
  else if m.size_ this = m.size_ other then
    match IsSuccessForAnyCrossItems fuel m this other
        (fun val val_other => decide (val > val_other)) with
    | .ret b => .ret (!b)
    | r => r
  else .ret (decide (m.size_ this < m.size_ other))

/-- `operator>`: `!(*this <= other)`. -/
def operator_gt [LT α] [DecidableRel (fun a b : α => a < b)] (fuel : Nat)
    (m : Mem α) (this other : Nat) : Res (Mem α) Bool :=
  match operator_le fuel m this other with
  | .ret b => .ret (!b)
  | r => r

/-- `operator>=`: `!(*this < other)`. -/
def operator_ge [LE α] [DecidableRel (fun a b : α => a ≤ b)] (fuel : Nat)
    (m : Mem α) (this other : Nat) : Res (Mem α) Bool :=
  match operator_lt fuel m this other with
  | .ret b => .ret (!b)
  | r => r

/-! ## Insertion and removal -/

/-- `InsertAfter`: `assert(pos.node_ != nullptr)`,
`new_node = new Node(value, pos.node_->next_node)`,
`pos.node_->next_node = new_node`, `++size_`, `return Iterator{new_node}`. -/
def InsertAfter (m : Mem α) (this : Nat) (pos : BasicIterator) (value : α) :
    Res (Mem α) (Mem α × BasicIterator) :=
  match pos.node_ with
  | none => .ub
  | some p =>
    match m.node p with
    | none => .ub
    | some n =>
      match new_Node m value n.next_node with
      | .ret (m1, new_node) =>
        match set_next_node m1 p (some new_node) with
        | none => .ub
        | some m2 => .ret (set_size m2 this (m2.size_ this + 1), ⟨some new_node⟩)
      | .throw s => .throw s
      | .ub => .ub
      | .timeout => .timeout

/-- `PopFront`: `assert(size_ > 0)`, `front_node_it = head_.next_node`,
`head_.next_node = front_node_it->next_node`, `delete front_node_it`,
`--size_`. -/
def PopFront (m : Mem α) (this : Nat) : Res (Mem α) (Mem α) :=
  if m.size_ this = 0 then .ub
  else
    match m.node this with
    | none => .ub
    | some head_ =>
      match head_.next_node with
      | none => .ub
      | some front_node_it =>
        match m.node front_node_it with
        | none => .ub
        | some n =>
          match set_next_node m this n.next_node with
          | none => .ub
          | some m1 => .ret (set_size (delete_Node m1 front_node_it) this (m1.size_ this - 1))

/-- `EraseAfter`: `assert(pos.node_->next_node != nullptr)`, `assert(size_ > 0)`,
`erased_node = pos.node_->next_node`,
`pos.node_->next_node = erased_node->next_node`, `delete erased_node`,
`--size_`, `return Iterator{pos.node_->next_node}`. -/
def EraseAfter (m : Mem α) (this : Nat) (pos : BasicIterator) :
    Res (Mem α) (Mem α × BasicIterator) :=
  match pos.node_ with
  | none => .ub
  | some p =>
    match m.node p with
    | none => .ub
    | some n =>
      match n.next_node with
      | none => .ub
      | some erased_node =>
        if m.size_ this = 0 then .ub
        else
          match m.node erased_node with
          | none => .ub
          | some e =>
            match set_next_node m p e.next_node with
            | none => .ub
            | some m1 =>
              let m2 := set_size (delete_Node m1 erased_node) this (m1.size_ this - 1)
              match m2.node p with
              | none => .ub
              | some n2 => .ret (m2, ⟨n2.next_node⟩)

/-! ## Observing a list -/

/-- The elements met by `for (it = begin(); it != end(); ++it)`, as `*it`. -/
def elements (fuel : Nat) (m : Mem α) (this : Nat) : Res (Mem α) (List α) :=
  match begin m this with
  | .ret first => read_range fuel m first end_
  | .throw s => .throw s
  | .ub => .ub
  | .timeout => .timeout

/-- What a call that returns a memory and a value leaves of the list `l`:
its elements and its size, `none` when the call does not return. -/
def Res.view {β : Type} (fuel : Nat) (l : Nat) :
    Res (Mem α) (Mem α × β) → Option (List α × Nat)
  | .ret (m, _) =>
    match elements fuel m l with
    | .ret vs => some (vs, GetSize m l)
    | _ => none
  | _ => none

/-- The memory with no object in it. -/
def Mem.empty (quota : Nat) : Mem α :=
  { node := fun _ => none, size_ := fun _ => 0, brk := 0, quota := quota }

/-! ## Client programs used as examples -/

/-- The client program `SingleLinkedList<Type> a{as}; SingleLinkedList<Type> b{bs};`
followed by `k`, run in an empty memory that grants `quota` fallible steps. -/
def with_two_lists [Inhabited α] {β : Type} (quota : Nat) (as bs : List α)
    (k : Mem α → Nat → Nat → Res (Mem α) β) : Res (Mem α) β :=
  match ctor_initializer_list 0 (Mem.empty quota) as with
  | .ret (m1, a) =>
    match ctor_initializer_list 0 m1 bs with
    | .ret (m2, b) => k m2 a b
    | .throw s => .throw s
    | .ub => .ub
    | .timeout => .timeout
  | .throw s => .throw s
  | .ub => .ub
  | .timeout => .timeout

/-- The memory after `SingleLinkedList<Type> l{values};` (the memory itself
when the constructor does not return). -/
def declare_list [Inhabited α] (m : Mem α) (values : List α) : Mem α :=
  match ctor_initializer_list 0 m values with
  | .ret (m1, _) => m1
  | _ => m

/-- The memory after the four declarations `l0{1, 2}`, `l3{2, 1}`, `l6{1}`,
`l8{1, 2, 3}`, with `quota` fallible steps left: the list objects sit at the
addresses 0, 3, 6 and 8, their nodes at 2 1, at 5 4, at 7 and at 11 10 9. -/
def exMem (quota : Nat) : Mem Nat :=
  { declare_list (declare_list (declare_list (declare_list (Mem.empty 8) [1, 2]) [2, 1]) [1])
      [1, 2, 3] with quota := quota }

/-! ## Well-formed lists -/

/-- `Seg node p cells q`: from the pointer `p` on, the live nodes at the
addresses `cells.map Prod.fst` are linked in this order, they hold the values
`cells.map Prod.snd`, and the link of the last one is `q` (for no cells,
`p = q`). -/
def Seg (node : Nat → Option (Node α)) : Option Nat → List (Nat × α) → Option Nat → Prop
  | p, [], q => p = q
  | p, c :: rest, q => p = some c.1 ∧ ∃ nx, node c.1 = some ⟨c.2, nx⟩ ∧ Seg node nx rest q

/-- The list object `l` is live, the chain from its sentinel is made of the
nodes `cells` and ends in `nullptr`, and `size_` is the number of nodes. -/
def IsList (m : Mem α) (l : Nat) (cells : List (Nat × α)) : Prop :=
  (∃ h, m.node l = some h ∧ Seg m.node h.next_node cells none) ∧ m.size_ l = cells.length

/-- A list object in its memory: `IsList`, and the object and its nodes lie
below `brk`, where allocation does not reach. -/
def Owns (m : Mem α) (l : Nat) (cells : List (Nat × α)) : Prop :=
  IsList m l cells ∧ l < m.brk ∧ ∀ c ∈ cells, c.1 < m.brk

/-- Two list objects are distinct and share no node. -/
def Apart (A B : Nat) (la lb : List (Nat × α)) : Prop :=
  A ≠ B ∧ A ∉ lb.map Prod.fst ∧ B ∉ la.map Prod.fst ∧
    ∀ a ∈ la.map Prod.fst, a ∉ lb.map Prod.fst

/-! ## Reachable memories -/

/-- The call ends, by a return or by an exception, in the memory `s`. -/
def Res.leaves {σ : Type} (r : Res σ σ) (s : σ) : Prop :=
  r = .ret s ∨ r = .throw s

/-- The iterator `pos` is a position of the list `l` that `InsertAfter` and
`EraseAfter` accept: it points at the sentinel (`before_begin()`) or at one of
the nodes of the chain of `l`. -/
def ValidPos (m : Mem α) (l : Nat) (pos : BasicIterator) : Prop :=
  ∃ head_ cells p, m.node l = some head_ ∧ Seg m.node head_.next_node cells none ∧
    pos.node_ = some p ∧ p ∈ l :: cells.map Prod.fst

/-- The memories a client reaches, with the list objects it has made: it
starts with no object, makes lists with the default constructor and calls
`PushFront`, `PopFront`, `InsertAfter`, `EraseAfter`, `Clear`, `swap` and the
copy assignment on them, each within its precondition (a call that runs into
undefined behaviour leaves no memory), with any fuel for the loops.  A call
may return or throw, and between calls the environment may change how many
fallible steps will succeed. -/
inductive Reach [Inhabited α] : Mem α → List Nat → Prop
  | start (quota : Nat) : Reach (Mem.empty quota) []
  | grant {m : Mem α} {objs : List Nat} (quota : Nat) :
      Reach m objs → Reach { m with quota := quota } objs
  | step_ctor {m : Mem α} {objs : List Nat} :
      Reach m objs → Reach (ctor_default m).1 ((ctor_default m).2 :: objs)
  | step_PushFront {m m' : Mem α} {objs : List Nat} (l : Nat) (x : α) :
      Reach m objs → l ∈ objs → Res.leaves (PushFront m l x) m' → Reach m' objs
  | step_PopFront {m m' : Mem α} {objs : List Nat} (l : Nat) :
      Reach m objs → l ∈ objs → Res.leaves (PopFront m l) m' → Reach m' objs
  | step_InsertAfter {m m' : Mem α} {objs : List Nat} (l : Nat) (pos : BasicIterator) (x : α) :
      Reach m objs → l ∈ objs → ValidPos m l pos →
      Res.leaves ((InsertAfter m l pos x).map Prod.fst) m' → Reach m' objs
  | step_EraseAfter {m m' : Mem α} {objs : List Nat} (l : Nat) (pos : BasicIterator) :
      Reach m objs → l ∈ objs → ValidPos m l pos →
      Res.leaves ((EraseAfter m l pos).map Prod.fst) m' → Reach m' objs
  | step_Clear {m m' : Mem α} {objs : List Nat} (fuel l : Nat) :
      Reach m objs → l ∈ objs → Res.leaves (Clear fuel m l) m' → Reach m' objs
  | step_swap {m m' : Mem α} {objs : List Nat} (l1 l2 : Nat) :
      Reach m objs → l1 ∈ objs → l2 ∈ objs → Res.leaves (swap m l1 l2) m' → Reach m' objs
  | step_assign {m m' : Mem α} {objs : List Nat} (fuel l1 l2 : Nat) :
      Reach m objs → l1 ∈ objs → l2 ∈ objs →
      Res.leaves (operator_assign fuel m l1 l2) m' → Reach m' objs

/-- What a call on the list `t` may do to the memory: `t` owns `new` instead
of `old`, a node of `new` is a node of `old` or a fresh one, and below `brk`
nothing else changes than `t` and the nodes of `old`. -/
def Touches (m m' : Mem α) (t : Nat) (old new : List (Nat × α)) : Prop :=
  Owns m' t new ∧ (∀ c ∈ new, m.brk ≤ c.1 ∨ c.1 ∈ old.map Prod.fst) ∧
    (∀ a, a < m.brk → a ≠ t → a ∉ old.map Prod.fst → m'.node a = m.node a) ∧
    (∀ a, a < m.brk → a ≠ t → m'.size_ a = m.size_ a) ∧ m.brk ≤ m'.brk

/-- The invariant of the reachable memories: every list object owns the
nodes `cellsOf` gives it, and two distinct list objects share no node. -/
def InvWith (m : Mem α) (objs : List Nat) (cellsOf : Nat → List (Nat × α)) : Prop :=
  (∀ l ∈ objs, Owns m l (cellsOf l)) ∧
    ∀ l1 ∈ objs, ∀ l2 ∈ objs, l1 ≠ l2 → Apart l1 l2 (cellsOf l1) (cellsOf l2)

/-! ## Chains -/

theorem seg_frame {node node' : Nat → Option (Node α)} {cells : List (Nat × α)}
    {p q : Option Nat} (h : ∀ c ∈ cells, node' c.1 = node c.1) :
    Seg node p cells q → Seg node' p cells q := by
  induction cells generalizing p with
  | nil => exact id
  | cons c rest ih =>
    rintro ⟨hp, nx, hn, hs⟩
    refine ⟨hp, nx, ?_, ih (fun d hd => h d (List.mem_cons_of_mem _ hd)) hs⟩
    rw [h c (List.mem_cons_self _ _)]; exact hn

theorem seg_append {node : Nat → Option (Node α)} {c1 c2 : List (Nat × α)}
    {p q : Option Nat} :
    Seg node p (c1 ++ c2) q ↔ ∃ r, Seg node p c1 r ∧ Seg node r c2 q := by
  induction c1 generalizing p with
  | nil =>
    constructor
    · intro h; exact ⟨p, rfl, h⟩
    · rintro ⟨r, hr, h⟩
      have : p = r := hr
      subst this; exact h
  | cons c rest ih =>
    constructor
    · rintro ⟨hp, nx, hn, hs⟩
      obtain ⟨r, h1, h2⟩ := ih.mp hs
      exact ⟨r, ⟨hp, nx, hn, h1⟩, h2⟩
    · rintro ⟨r, ⟨hp, nx, hn, h1⟩, h2⟩
      exact ⟨hp, nx, hn, ih.mpr ⟨r, h1, h2⟩⟩

theorem seg_unique {node : Nat → Option (Node α)} {c1 c2 : List (Nat × α)}
    {p : Option Nat} (h1 : Seg node p c1 none) (h2 : Seg node p c2 none) : c1 = c2 := by
  induction c1 generalizing p c2 with
  | nil =>
    cases c2 with
    | nil => rfl
    | cons d rest =>
      have hp : p = none := h1
      obtain ⟨hd, -⟩ := h2
      rw [hp] at hd; cases hd
  | cons c rest ih =>
    obtain ⟨hp, nx, hn, hs⟩ := h1
    cases c2 with
    | nil =>
      have hp2 : p = none := h2
      rw [hp2] at hp; cases hp
    | cons d rest2 =>
      obtain ⟨hp2, nx2, hn2, hs2⟩ := h2
      rw [hp] at hp2
      have hcd : c.1 = d.1 := Option.some.inj hp2
      rw [← hcd, hn] at hn2
      have hv : c.2 = d.2 := by injection hn2 with h; injection h
      have hx : nx = nx2 := by injection hn2 with h; injection h
      subst hx
      have : c = d := Prod.ext hcd hv
      subst this
      rw [ih hs hs2]

/-- A chain that ends in `nullptr` does not pass through the node it starts
after: a node on its own chain would close a cycle. -/
theorem seg_not_mem {node : Nat → Option (Node α)} {cells : List (Nat × α)} {a : Nat}
    {n : Node α} (hn : node a = some n) (hs : Seg node n.next_node cells none) :
    a ∉ cells.map Prod.fst := by
  intro hmem
  obtain ⟨c, hc, hca⟩ := List.mem_map.mp hmem
  obtain ⟨pre, post, hsplit⟩ := List.append_of_mem hc
  rw [hsplit] at hs
  obtain ⟨r, -, h2⟩ := seg_append.mp hs
  obtain ⟨-, nx, hnc, hpost⟩ := h2
  rw [hca, hn] at hnc
  have hnx : n.next_node = nx := by injection hnc with h; rw [h]
  rw [← hnx] at hpost
  rw [← hsplit] at hs
  have := seg_unique hs hpost
  have hlen := congrArg List.length this
  rw [hsplit] at hlen
  simp at hlen
  omega

theorem seg_nodup {node : Nat → Option (Node α)} {cells : List (Nat × α)} {p : Option Nat}
    (hs : Seg node p cells none) : (cells.map Prod.fst).Nodup := by
  induction cells generalizing p with
  | nil => simp
  | cons c rest ih =>
    obtain ⟨-, nx, hn, hrest⟩ := hs
    rw [List.map_cons, List.nodup_cons]
    exact ⟨seg_not_mem hn hrest, ih hrest⟩

theorem read_range_seg {m : Mem α} {cells : List (Nat × α)} {p : Option Nat} {fuel : Nat}
    (hs : Seg m.node p cells none) (hf : cells.length ≤ fuel) :
    read_range fuel m ⟨p⟩ end_ = .ret (cells.map Prod.snd) := by
  induction cells generalizing p fuel with
  | nil =>
    have hp : p = none := hs
    subst hp
    cases fuel <;> simp [read_range, BasicIterator.eq, end_]
  | cons c rest ih =>
    obtain ⟨hp, nx, hn, hrest⟩ := hs
    subst hp
    cases fuel with
    | zero => simp at hf
    | succ f =>
      have hf2 : rest.length ≤ f := by simpa using hf
      have hrec := ih hrest hf2
      simp only [end_] at hrec
      simp [read_range, BasicIterator.eq, end_, BasicIterator.deref, BasicIterator.incr, hn,
        hrec]

theorem elements_isList {m : Mem α} {l : Nat} {cells : List (Nat × α)} {fuel : Nat}
    (h : IsList m l cells) (hf : cells.length ≤ fuel) :
    elements fuel m l = .ret (cells.map Prod.snd) := by
  obtain ⟨⟨hd, hl, hs⟩, -⟩ := h
  simp [elements, begin, hl, read_range_seg hs hf]

/-! ## `PushFront` and the range constructor -/

theorem owns_frame {m m' : Mem α} {l : Nat} {cells : List (Nat × α)} (h : Owns m l cells)
    (hl : m'.node l = m.node l) (hc : ∀ c ∈ cells, m'.node c.1 = m.node c.1)
    (hsz : m'.size_ l = m.size_ l) (hb : m.brk ≤ m'.brk) : Owns m' l cells := by
  obtain ⟨⟨⟨hd, hhd, hs⟩, hsize⟩, hlt, hcl⟩ := h
  refine ⟨⟨⟨hd, by rw [hl]; exact hhd, seg_frame hc hs⟩, by rw [hsz]; exact hsize⟩,
    by omega, fun c hcm => by have := hcl c hcm; omega⟩

theorem PushFront_throw {m : Mem α} {t : Nat} {hd : Node α} {x : α} (hl : m.node t = some hd)
    (hq : m.quota = 0) : PushFront m t x = .throw m := by
  simp [PushFront, hl, new_Node, hq]

theorem PushFront_owns {m : Mem α} {t : Nat} {cells : List (Nat × α)} {x : α}
    (h : Owns m t cells) (hq : 0 < m.quota) :
    ∃ m', PushFront m t x = .ret m' ∧ Owns m' t ((m.brk, x) :: cells) ∧
      (∀ a, a < m.brk → a ≠ t → m'.node a = m.node a) ∧
      (∀ a, a ≠ t → m'.size_ a = m.size_ a) ∧
      m'.brk = m.brk + 1 ∧ m'.quota = m.quota - 1 := by
  obtain ⟨⟨⟨hd, hhd, hs⟩, hsize⟩, hlt, hcl⟩ := h
  obtain ⟨q, hq'⟩ : ∃ q, m.quota = q + 1 := ⟨m.quota - 1, by omega⟩
  have hne : t ≠ m.brk := by omega
  have hnot := seg_not_mem hhd hs
  refine ⟨_, by simp [PushFront, hhd, new_Node, hq', set_next_node, hne]; rfl,
    ?_, ?_, ?_, ?_, ?_⟩
  · refine ⟨⟨⟨⟨hd.value, some m.brk⟩, by simp [set_size], rfl, hd.next_node, ?_, ?_⟩, ?_⟩,
      ?_, ?_⟩
    · simp [set_size, Ne.symm hne]
    · refine seg_frame (fun c hc => ?_) hs
      have h1 : c.1 ≠ t := fun e => hnot (e ▸ List.mem_map_of_mem _ hc)
      have h2 : c.1 ≠ m.brk := by have := hcl c hc; omega
      simp [set_size, h1, h2]
    · simp [set_size, hsize]
    · simp [set_size]; omega
    · intro c hc
      rcases List.mem_cons.mp hc with rfl | hc
      · simp [set_size]
      · have := hcl c hc
        simp [set_size]; omega
  · intro a ha hat
    have : a ≠ m.brk := by omega
    simp [set_size, hat, this]
  · intro a hat
    simp [set_size, hat]
  · simp [set_size]
  · simp [set_size, hq']

theorem ctor_range_loop_owns {t : Nat} (src : List α) :
    ∀ {m : Mem α} {cells : List (Nat × α)}, Owns m t cells →
    ∃ m' new, ctor_range_loop m t src
        = (if src.length ≤ m.quota then Res.ret m' else Res.throw m') ∧
      Owns m' t (new ++ cells) ∧ new.map Prod.snd = (src.take m.quota).reverse ∧
      (∀ c ∈ new, m.brk ≤ c.1) ∧
      (∀ a, a < m.brk → a ≠ t → m'.node a = m.node a) ∧
      (∀ a, a ≠ t → m'.size_ a = m.size_ a) ∧
      m.brk ≤ m'.brk ∧ m'.quota = m.quota - src.length := by
  induction src with
  | nil =>
    intro m cells h
    exact ⟨m, [], by simp [ctor_range_loop], by simpa using h, by simp, by simp,
      fun _ _ _ => rfl, fun _ _ => rfl, le_refl _, by simp⟩
  | cons x rest ih =>
    intro m cells h
    by_cases hq : m.quota = 0
    · obtain ⟨hd, hhd, -⟩ := h.1.1
      refine ⟨m, [], ?_, by simpa using h, by simp [hq], by simp,
        fun _ _ _ => rfl, fun _ _ => rfl, le_refl _, by simp [hq]⟩
      simp [ctor_range_loop, PushFront_throw hhd hq, hq]
    · obtain ⟨m1, hpush, hown1, hnode1, hsize1, hbrk1, hquota1⟩ :=
        PushFront_owns (x := x) h (Nat.pos_of_ne_zero hq)
      obtain ⟨m', new, hloop, hown, hvals, hnew, hnode, hsize, hbrk, hquota⟩ := ih hown1
      refine ⟨m', new ++ [(m.brk, x)], ?_, by simpa using hown, ?_, ?_, ?_, ?_, by omega, ?_⟩
      · simp only [ctor_range_loop, hpush, hloop, hquota1, List.length_cons]
        by_cases hle : rest.length ≤ m.quota - 1
        · rw [if_pos hle, if_pos (by omega)]
        · rw [if_neg hle, if_neg (by omega)]
      · obtain ⟨q, hq'⟩ : ∃ q, m.quota = q + 1 := ⟨m.quota - 1, by omega⟩
        rw [hquota1, hq'] at hvals
        simp [hvals, hq']
      · intro c hc
        rcases List.mem_append.mp hc with hc | hc
        · have := hnew c hc; omega
        · simp at hc; subst hc; exact le_refl _
      · intro a ha hat
        rw [hnode a (by omega) hat, hnode1 a ha hat]
      · intro a hat
        rw [hsize a hat, hsize1 a hat]
      · rw [hquota, hquota1]; simp; omega

theorem Clear_loop_seg {cells : List (Nat × α)} :
    ∀ {m : Mem α} {p : Option Nat} {fuel : Nat}, Seg m.node p cells none →
    cells.length ≤ fuel →
    ∃ m', Clear_loop fuel m p = .ret m' ∧
      (∀ a, a ∉ cells.map Prod.fst → m'.node a = m.node a) ∧
      m'.size_ = m.size_ ∧ m'.brk = m.brk ∧ m'.quota = m.quota := by
  induction cells with
  | nil =>
    intro m p fuel hs _
    have hp : p = none := hs
    subst hp
    exact ⟨m, by cases fuel <;> simp [Clear_loop], fun _ _ => rfl, rfl, rfl, rfl⟩
  | cons c rest ih =>
    intro m p fuel hs hf
    obtain ⟨hp, nx, hn, hrest⟩ := hs
    subst hp
    cases fuel with
    | zero => simp at hf
    | succ f =>
      have hnot := seg_not_mem (n := ⟨c.2, nx⟩) hn hrest
      have hrest' : Seg (delete_Node m c.1).node nx rest none := by
        refine seg_frame (fun d hd => ?_) hrest
        have : d.1 ≠ c.1 := fun e => hnot (e ▸ List.mem_map_of_mem _ hd)
        simp [delete_Node, this]
      obtain ⟨m', hloop, hnode, hsz, hbrk, hquota⟩ := ih hrest' (by simpa using hf)
      refine ⟨m', by simp [Clear_loop, hn, hloop], ?_, by rw [hsz]; rfl, by rw [hbrk]; rfl,
        by rw [hquota]; rfl⟩
      intro a ha
      simp only [List.map_cons, List.mem_cons, not_or] at ha
      rw [hnode a ha.2]
      simp [delete_Node, ha.1]

theorem Clear_owns {m : Mem α} {t : Nat} {cells : List (Nat × α)} {fuel : Nat}
    (h : Owns m t cells) (hf : cells.length ≤ fuel) :
    ∃ m', Clear fuel m t = .ret m' ∧ Owns m' t [] ∧
      (∀ a, a ≠ t → a ∉ cells.map Prod.fst → m'.node a = m.node a) ∧
      (∀ a, a ≠ t → m'.size_ a = m.size_ a) ∧
      m'.brk = m.brk ∧ m'.quota = m.quota := by
  obtain ⟨⟨⟨hd, hhd, hs⟩, -⟩, hlt, -⟩ := h
  obtain ⟨m1, hloop, hnode, hsz, hbrk, hquota⟩ := Clear_loop_seg hs hf
  have hnot := seg_not_mem hhd hs
  have hhd1 : m1.node t = some hd := by rw [hnode t hnot]; exact hhd
  refine ⟨_, by simp [Clear, hhd, hloop, set_next_node, hhd1]; rfl, ?_, ?_, ?_, ?_, ?_⟩
  · exact ⟨⟨⟨⟨hd.value, none⟩, by simp [set_size], rfl⟩, by simp [set_size]⟩,
      by simp [set_size, hbrk]; exact hlt, by simp⟩
  · intro a hat ha
    simp [set_size, hat, hnode a ha]
  · intro a hat
    simp [set_size, hat, hsz]
  · simp [set_size, hbrk]
  · simp [set_size, hquota]

theorem dtor_owns {m : Mem α} {t : Nat} {cells : List (Nat × α)} {fuel : Nat}
    (h : Owns m t cells) (hf : cells.length ≤ fuel) :
    ∃ m', dtor fuel m t = .ret m' ∧
      (∀ a, a ≠ t → a ∉ cells.map Prod.fst → m'.node a = m.node a) ∧
      (∀ a, a ≠ t → m'.size_ a = m.size_ a) ∧
      m'.brk = m.brk ∧ m'.quota = m.quota := by
  obtain ⟨m1, hclear, -, hnode, hsz, hbrk, hquota⟩ := Clear_owns h hf
  refine ⟨_, by simp [dtor, hclear]; rfl, ?_, ?_, ?_, ?_⟩
  · intro a hat ha
    simp [delete_Node, hat, hnode a hat ha]
  · intro a hat
    simp [delete_Node, hsz a hat]
  · simp [delete_Node, hbrk]
  · simp [delete_Node, hquota]

theorem ctor_default_owns [Inhabited α] (m : Mem α) :
    Owns (ctor_default m).1 m.brk [] ∧ (ctor_default m).2 = m.brk ∧
      (∀ a, a ≠ m.brk → (ctor_default m).1.node a = m.node a) ∧
      (∀ a, a ≠ m.brk → (ctor_default m).1.size_ a = m.size_ a) ∧
      (ctor_default m).1.brk = m.brk + 1 ∧ (ctor_default m).1.quota = m.quota := by
  refine ⟨⟨⟨⟨⟨default, none⟩, by simp [ctor_default], rfl⟩, by simp [ctor_default]⟩,
    by simp [ctor_default], by simp⟩, rfl, ?_, ?_, rfl, rfl⟩
  · intro a ha; simp [ctor_default, ha]
  · intro a ha; simp [ctor_default, ha]

theorem ctor_range_ret [Inhabited α] {m : Mem α} (src : List α) (fuel : Nat)
    (hq : src.length ≤ m.quota) :
    ∃ m' cells, ctor_range fuel m src = .ret (m', m.brk) ∧ Owns m' m.brk cells ∧
      cells.map Prod.snd = src.reverse ∧
      (∀ c ∈ cells, m.brk < c.1) ∧
      (∀ a, a < m.brk → m'.node a = m.node a) ∧
      (∀ a, a ≠ m.brk → m'.size_ a = m.size_ a) ∧
      m.brk < m'.brk ∧ m'.quota = m.quota - src.length := by
  obtain ⟨h0, ht, hnode0, hsize0, hbrk0, hquota0⟩ := ctor_default_owns m
  obtain ⟨m', new, hloop, hown, hvals, hnew, hnode, hsize, hbrk, hquota⟩ :=
    ctor_range_loop_owns src h0
  rw [hquota0, if_pos hq] at hloop
  refine ⟨m', new, ?_, by simpa using hown, ?_, ?_, ?_, ?_, by omega, by omega⟩
  · have hcd : ctor_default m = ((ctor_default m).1, m.brk) := Prod.ext rfl ht
    simp only [ctor_range]
    rw [hcd]
    simp only [hloop]
  · rw [hvals, hquota0, List.take_of_length_le hq]
  · intro c hc
    have := hnew c hc; omega
  · intro a ha
    rw [hnode a (by omega) (by omega), hnode0 a (by omega)]
  · intro a ha
    rw [hsize a ha, hsize0 a ha]

theorem ctor_range_throw [Inhabited α] {m : Mem α} {src : List α} {fuel : Nat}
    (hq : m.quota < src.length) (hf : m.quota ≤ fuel) :
    ∃ m', ctor_range fuel m src = .throw m' ∧
      (∀ a, a < m.brk → m'.node a = m.node a) ∧
      (∀ a, a ≠ m.brk → m'.size_ a = m.size_ a) ∧
      m.brk < m'.brk := by
  obtain ⟨h0, ht, hnode0, hsize0, hbrk0, hquota0⟩ := ctor_default_owns m
  obtain ⟨s, new, hloop, hown, hvals, hnew, hnode, hsize, hbrk, hquota⟩ :=
    ctor_range_loop_owns src h0
  rw [hquota0, if_neg (by omega)] at hloop
  have hlen : new.length ≤ fuel := by
    have := congrArg List.length hvals
    simp at this
    omega
  obtain ⟨s1, hd, hnode1, hsize1, hbrk1, -⟩ := dtor_owns hown (by simpa using hlen)
  refine ⟨s1, ?_, ?_, ?_, by omega⟩
  · have hcd : ctor_default m = ((ctor_default m).1, m.brk) := Prod.ext rfl ht
    simp only [ctor_range]
    rw [hcd]
    simp only [hloop, hd]
  · intro a ha
    have hnotin : a ∉ (new ++ []).map Prod.fst := by
      intro hmem
      obtain ⟨c, hc, hca⟩ := List.mem_map.mp hmem
      have := hnew c (by simpa using hc)
      omega
    rw [hnode1 a (by omega) hnotin, hnode a (by omega) (by omega), hnode0 a (by omega)]
  · intro a ha
    rw [hsize1 a ha, hsize a ha, hsize0 a ha]

/-! ## `swap` and the copy assignment -/

theorem swap_owns {m : Mem α} {A t : Nat} {la lt : List (Nat × α)} (hA : Owns m A la)
    (ht : Owns m t lt) (hne : A ≠ t) (h1 : A ∉ lt.map Prod.fst) (h2 : t ∉ la.map Prod.fst) :
    ∃ m', swap m A t = .ret m' ∧ Owns m' A lt ∧ Owns m' t la ∧
      (∀ a, a ≠ A → a ≠ t → m'.node a = m.node a) ∧
      (∀ a, a ≠ A → a ≠ t → m'.size_ a = m.size_ a) ∧
      m'.brk = m.brk ∧ m'.quota = m.quota := by
  obtain ⟨⟨⟨hdA, hhdA, hsA⟩, hsizeA⟩, hltA, hclA⟩ := hA
  obtain ⟨⟨⟨hdt, hhdt, hst⟩, hsizet⟩, hltt, hclt⟩ := ht
  have hA' := seg_not_mem hhdA hsA
  have ht' := seg_not_mem hhdt hst
  refine ⟨_, by simp [swap, hhdA, hhdt, set_next_node, Ne.symm hne]; rfl,
    ?_, ?_, ?_, ?_, ?_, ?_⟩
  · refine ⟨⟨⟨⟨hdA.value, hdt.next_node⟩, by simp [set_size, hne], ?_⟩, ?_⟩,
      ?_, ?_⟩
    · refine seg_frame (fun c hc => ?_) hst
      have e1 : c.1 ≠ A := fun e => h1 (e ▸ List.mem_map_of_mem _ hc)
      have e2 : c.1 ≠ t := fun e => ht' (e ▸ List.mem_map_of_mem _ hc)
      simp [set_size, e1, e2]
    · simp [set_size, hne, hsizet]
    · simpa [set_size] using hltA
    · simpa [set_size] using hclt
  · refine ⟨⟨⟨⟨hdt.value, hdA.next_node⟩, by simp [set_size], ?_⟩, ?_⟩, ?_, ?_⟩
    · refine seg_frame (fun c hc => ?_) hsA
      have e1 : c.1 ≠ A := fun e => hA' (e ▸ List.mem_map_of_mem _ hc)
      have e2 : c.1 ≠ t := fun e => h2 (e ▸ List.mem_map_of_mem _ hc)
      simp [set_size, e1, e2]
    · simp [set_size, hsizeA]
    · simpa [set_size] using hltt
    · simpa [set_size] using hclA
  · intro a ha hat
    simp [set_size, ha, hat]
  · intro a ha hat
    simp [set_size, ha, hat]
  · simp [set_size]
  · simp [set_size]

theorem vector_ctor_isList {m : Mem α} {B : Nat} {lb : List (Nat × α)} {fuel : Nat}
    (hB : IsList m B lb) (hf : lb.length ≤ fuel) :
    ∃ first, begin m B = .ret first ∧
      vector_ctor fuel m first end_
        = (if m.quota = 0 then Res.throw m
           else Res.ret ({ m with quota := m.quota - 1 }, lb.map Prod.snd)) := by
  obtain ⟨⟨hd, hhd, hs⟩, -⟩ := hB
  refine ⟨⟨hd.next_node⟩, by simp [begin, hhd], ?_⟩
  simp only [vector_ctor, read_range_seg hs hf]
  cases hq : m.quota with
  | zero => simp
  | succ q => simp

theorem operator_assign_ret_frame [Inhabited α] {m : Mem α} {A B : Nat}
    {la lb : List (Nat × α)} (fuel : Nat) (hA : Owns m A la) (hB : Owns m B lb)
    (hap : Apart A B la lb) (hne : lb ≠ []) (hq : lb.length < m.quota)
    (hfa : la.length ≤ fuel) (hfb : lb.length ≤ fuel) :
    ∃ m' la', operator_assign fuel m A B = .ret m' ∧ Owns m' A la' ∧
      la'.map Prod.snd = lb.map Prod.snd ∧ Owns m' B lb ∧
      (∀ c ∈ la', m.brk ≤ c.1) ∧
      (∀ a, a < m.brk → a ≠ A → a ∉ la.map Prod.fst → m'.node a = m.node a) ∧
      (∀ a, a < m.brk → a ≠ A → m'.size_ a = m.size_ a) ∧ m.brk ≤ m'.brk := by
  obtain ⟨hAB, hAlb, hBla, hdisj⟩ := hap
  have hszB : m.size_ B ≠ 0 := by
    rw [hB.1.2]; exact fun h => hne (List.length_eq_zero.mp h)
  obtain ⟨first, hbegin, hvec⟩ := vector_ctor_isList hB.1 hfb
  rw [if_neg (by omega)] at hvec
  -- the temporary list, built from the buffer read backwards
  have hq1 : (lb.map Prod.snd).reverse.length
      ≤ ({ m with quota := m.quota - 1 } : Mem α).quota := by
    simp; omega
  obtain ⟨m2, cells, hctor, hown2, hvals, hnew, hnode2, hsize2, hbrk2, -⟩ :=
    ctor_range_ret _ fuel hq1
  have hbrk1 : ({ m with quota := m.quota - 1 } : Mem α).brk = m.brk := rfl
  rw [hbrk1] at hctor hown2 hnew hnode2 hsize2 hbrk2
  have hnode2' : ∀ a, a < m.brk → m2.node a = m.node a := hnode2
  have hsize2' : ∀ a, a ≠ m.brk → m2.size_ a = m.size_ a := hsize2
  have hA2 : Owns m2 A la :=
    owns_frame hA (hnode2' A hA.2.1) (fun c hc => hnode2' c.1 (hA.2.2 c hc))
      (hsize2' A (by have := hA.2.1; omega)) (by omega)
  have hB2 : Owns m2 B lb :=
    owns_frame hB (hnode2' B hB.2.1) (fun c hc => hnode2' c.1 (hB.2.2 c hc))
      (hsize2' B (by have := hB.2.1; omega)) (by omega)
  have hAt : A ≠ m.brk := by have := hA.2.1; omega
  have hBt : B ≠ m.brk := by have := hB.2.1; omega
  have hAcells : A ∉ cells.map Prod.fst := by
    intro hmem
    obtain ⟨c, hc, hca⟩ := List.mem_map.mp hmem
    have := hnew c hc; have := hA.2.1; omega
  have htla : m.brk ∉ la.map Prod.fst := by
    intro hmem
    obtain ⟨c, hc, hca⟩ := List.mem_map.mp hmem
    have := hA.2.2 c hc; omega
  obtain ⟨m3, hswap, hA3, ht3, hnode3, hsize3, hbrk3, -⟩ :=
    swap_owns hA2 hown2 hAt hAcells htla
  obtain ⟨m4, hdtor, hnode4, hsize4, hbrk4, -⟩ := dtor_owns ht3 hfa
  have hAla : A ∉ la.map Prod.fst := by
    obtain ⟨⟨hd, hhd, hs⟩, -⟩ := hA.1
    exact seg_not_mem hhd hs
  refine ⟨m4, cells, ?_, ?_, by simpa using hvals, ?_, ?_, ?_, ?_, by omega⟩
  · simp only [operator_assign, if_neg hAB, if_neg hszB, hbegin, hvec, hctor, hswap, hdtor]
  · refine owns_frame hA3 (hnode4 A hAt hAla) (fun c hc => hnode4 c.1 ?_ ?_)
      (hsize4 A hAt) (by omega)
    · have := hnew c hc; omega
    · intro hmem
      obtain ⟨d, hd, hdc⟩ := List.mem_map.mp hmem
      have := hA.2.2 d hd; have := hnew c hc; omega
  · refine owns_frame hB2 ?_ (fun c hc => ?_) ?_ (by omega)
    · rw [hnode4 B hBt hBla, hnode3 B (Ne.symm hAB) hBt]
    · have hcm : c.1 ∈ lb.map Prod.fst := List.mem_map_of_mem _ hc
      have e1 : c.1 ≠ m.brk := by have := hB.2.2 c hc; omega
      have e2 : c.1 ∉ la.map Prod.fst := fun h => hdisj c.1 h hcm
      have e3 : c.1 ≠ A := fun e => hAlb (e ▸ hcm)
      rw [hnode4 c.1 e1 e2, hnode3 c.1 e3 e1]
    · rw [hsize4 B hBt, hsize3 B (Ne.symm hAB) hBt]
  · intro c hc
    have := hnew c hc; omega
  · intro a ha haA hala
    rw [hnode4 a (by omega) hala, hnode3 a haA (by omega), hnode2' a ha]
  · intro a ha haA
    rw [hsize4 a (by omega), hsize3 a haA (by omega), hsize2' a (by omega)]

theorem operator_assign_ret [Inhabited α] {m : Mem α} {A B : Nat} {la lb : List (Nat × α)}
    (fuel : Nat) (hA : Owns m A la) (hB : Owns m B lb) (hap : Apart A B la lb)
    (hne : lb ≠ []) (hq : lb.length < m.quota) (hfa : la.length ≤ fuel)
    (hfb : lb.length ≤ fuel) :
    ∃ m' la', operator_assign fuel m A B = .ret m' ∧ Owns m' A la' ∧
      la'.map Prod.snd = lb.map Prod.snd ∧ Owns m' B lb := by
  obtain ⟨m', la', h1, h2, h3, h4, -⟩ := operator_assign_ret_frame fuel hA hB hap hne hq hfa hfb
  exact ⟨m', la', h1, h2, h3, h4⟩

theorem operator_assign_empty [Inhabited α] {m : Mem α} {A B : Nat} {la : List (Nat × α)}
    (fuel : Nat) (hA : Owns m A la) (hB : Owns m B []) (hap : Apart A B la [])
    (hfa : la.length ≤ fuel) :
    ∃ m', operator_assign fuel m A B = .ret m' ∧ Owns m' A [] ∧ Owns m' B [] := by
  obtain ⟨hAB, -, hBla, -⟩ := hap
  have hszB : m.size_ B = 0 := by rw [hB.1.2]; rfl
  obtain ⟨m1, hclear, hown, hnode, hsize, hbrk, -⟩ := Clear_owns hA hfa
  refine ⟨m1, by simp only [operator_assign, if_neg hAB, if_pos hszB, hclear], hown, ?_⟩
  exact owns_frame hB (hnode B (Ne.symm hAB) hBla) (by simp) (hsize B (Ne.symm hAB)) (by omega)

theorem operator_assign_throw_frame [Inhabited α] {m : Mem α} {A B : Nat}
    {la lb : List (Nat × α)} {fuel : Nat} (hA : Owns m A la) (hB : Owns m B lb)
    (hap : Apart A B la lb) (hne : lb ≠ []) (hq : m.quota ≤ lb.length)
    (hfb : lb.length ≤ fuel) :
    ∃ m', operator_assign fuel m A B = .throw m' ∧ Owns m' A la ∧ Owns m' B lb ∧
      (∀ a, a < m.brk → m'.node a = m.node a) ∧
      (∀ a, a < m.brk → m'.size_ a = m.size_ a) ∧ m.brk ≤ m'.brk := by
  obtain ⟨hAB, -, -, -⟩ := hap
  have hszB : m.size_ B ≠ 0 := by
    rw [hB.1.2]; exact fun h => hne (List.length_eq_zero.mp h)
  obtain ⟨first, hbegin, hvec⟩ := vector_ctor_isList hB.1 hfb
  by_cases hq0 : m.quota = 0
  · rw [if_pos hq0] at hvec
    exact ⟨m, by simp only [operator_assign, if_neg hAB, if_neg hszB, hbegin, hvec], hA, hB,
      fun _ _ => rfl, fun _ _ => rfl, le_refl _⟩
  · rw [if_neg hq0] at hvec
    have hq1 : ({ m with quota := m.quota - 1 } : Mem α).quota
        < (lb.map Prod.snd).reverse.length := by
      simp; omega
    have hf1 : ({ m with quota := m.quota - 1 } : Mem α).quota ≤ fuel := by
      simp; omega
    obtain ⟨m', hctor, hnode, hsize, hbrk⟩ := ctor_range_throw hq1 hf1
    have hnode' : ∀ a, a < m.brk → m'.node a = m.node a := hnode
    have hsize' : ∀ a, a ≠ m.brk → m'.size_ a = m.size_ a := hsize
    have hbrk' : m.brk < m'.brk := hbrk
    refine ⟨m', by simp only [operator_assign, if_neg hAB, if_neg hszB, hbegin, hvec, hctor],
      ?_, ?_, hnode', fun a ha => hsize' a (by omega), by omega⟩
    · exact owns_frame hA (hnode' A hA.2.1) (fun c hc => hnode' c.1 (hA.2.2 c hc))
        (hsize' A (by have := hA.2.1; omega)) (by omega)
    · exact owns_frame hB (hnode' B hB.2.1) (fun c hc => hnode' c.1 (hB.2.2 c hc))
        (hsize' B (by have := hB.2.1; omega)) (by omega)

theorem operator_assign_throw [Inhabited α] {m : Mem α} {A B : Nat} {la lb : List (Nat × α)}
    {fuel : Nat} (hA : Owns m A la) (hB : Owns m B lb) (hap : Apart A B la lb)
    (hne : lb ≠ []) (hq : m.quota ≤ lb.length) (hfb : lb.length ≤ fuel) :
    ∃ m', operator_assign fuel m A B = .throw m' ∧ Owns m' A la ∧ Owns m' B lb := by
  obtain ⟨m', h1, h2, h3, -⟩ := operator_assign_throw_frame hA hB hap hne hq hfb
  exact ⟨m', h1, h2, h3⟩

theorem ctor_copy_ret [Inhabited α] {m : Mem α} {B : Nat} {lb : List (Nat × α)} {fuel : Nat}
    (hB : Owns m B lb) (hq : lb ≠ [] → lb.length < m.quota) (hfb : lb.length ≤ fuel) :
    ∃ m' la', ctor_copy fuel m B = .ret (m', m.brk) ∧ Owns m' m.brk la' ∧
      la'.map Prod.snd = lb.map Prod.snd ∧ Owns m' B lb := by
  obtain ⟨h0, ht, hnode0, hsize0, hbrk0, hquota0⟩ := ctor_default_owns m
  have hBt : B ≠ m.brk := by have := hB.2.1; omega
  have hB0 : Owns (ctor_default m).1 B lb :=
    owns_frame hB (hnode0 B hBt)
      (fun c hc => hnode0 c.1 (by have := hB.2.2 c hc; omega)) (hsize0 B hBt) (by omega)
  have hap : Apart m.brk B [] lb := by
    refine ⟨Ne.symm hBt, ?_, by simp, by simp⟩
    intro hmem
    obtain ⟨c, hc, hca⟩ := List.mem_map.mp hmem
    have := hB.2.2 c hc; omega
  have hassert : (ctor_default m).1.size_ m.brk = 0 ∧
      ((ctor_default m).1.node m.brk).map Node.next_node = some none := by
    simp [ctor_default]
  have hcd : ctor_default m = ((ctor_default m).1, m.brk) := Prod.ext rfl ht
  by_cases hne : lb = []
  · subst hne
    obtain ⟨m', hassign, hA', hB'⟩ := operator_assign_empty fuel h0 hB0 hap (by simp)
    refine ⟨m', [], ?_, hA', rfl, hB'⟩
    simp only [ctor_copy]
    rw [hcd]
    simp only [if_pos hassert, hassign]
  · obtain ⟨m', la', hassign, hA', hvals, hB'⟩ :=
      operator_assign_ret fuel h0 hB0 hap hne (by rw [hquota0]; exact hq hne)
        (by simp) hfb
    refine ⟨m', la', ?_, hA', hvals, hB'⟩
    simp only [ctor_copy]
    rw [hcd]
    simp only [if_pos hassert, hassign]

/-! ## Comparisons -/

theorem any_zip_iff (pred : α → α → Bool) (va vb : List α) :
    (List.zip va vb).any (fun ab => pred ab.1 ab.2) = true ↔
      ∃ (i : Nat) (x y : α), va[i]? = some x ∧ vb[i]? = some y ∧ pred x y = true := by
  induction va generalizing vb with
  | nil => simp
  | cons a ra ih =>
    cases vb with
    | nil => simp
    | cons b rb =>
      simp only [List.zip_cons_cons, List.any_cons, Bool.or_eq_true, ih]
      constructor
      · rintro (h | ⟨i, x, y, hx, hy, hp⟩)
        · exact ⟨0, a, b, by simp, by simp, h⟩
        · exact ⟨i + 1, x, y, by simpa using hx, by simpa using hy, hp⟩
      · rintro ⟨i, x, y, hx, hy, hp⟩
        cases i with
        | zero =>
          simp at hx hy
          subst hx; subst hy
          exact Or.inl hp
        | succ j => exact Or.inr ⟨j, x, y, by simpa using hx, by simpa using hy, hp⟩

theorem cross_loop_seg (pred : α → α → Bool) {m : Mem α} {ca : List (Nat × α)} :
    ∀ {cb : List (Nat × α)} {p q : Option Nat} {fuel : Nat}, Seg m.node p ca none →
    Seg m.node q cb none → min ca.length cb.length ≤ fuel →
    IsSuccessForAnyCrossItems_loop pred fuel m ⟨p⟩ ⟨q⟩
      = .ret ((List.zip (ca.map Prod.snd) (cb.map Prod.snd)).any (fun ab => pred ab.1 ab.2)) := by
  induction ca with
  | nil =>
    intro cb p q fuel hp _ _
    have : p = none := hp
    subst this
    cases fuel <;> simp [IsSuccessForAnyCrossItems_loop, BasicIterator.eq, end_]
  | cons c ra ih =>
    intro cb p q fuel hp hq hf
    obtain ⟨hpc, nx, hn, hra⟩ := hp
    subst hpc
    cases cb with
    | nil =>
      have : q = none := hq
      subst this
      cases fuel <;> simp [IsSuccessForAnyCrossItems_loop, BasicIterator.eq, end_]
    | cons d rb =>
      obtain ⟨hqd, ny, hnd, hrb⟩ := hq
      subst hqd
      cases fuel with
      | zero => simp at hf
      | succ f =>
        have hf2 : min ra.length rb.length ≤ f := by
          simp only [List.length_cons] at hf
          omega
        have hrec := ih hra hrb hf2
        by_cases hpred : pred c.2 d.2 = true
        · simp [IsSuccessForAnyCrossItems_loop, BasicIterator.eq, end_, BasicIterator.deref,
            hn, hnd, hpred]
        · simp [IsSuccessForAnyCrossItems_loop, BasicIterator.eq, end_, BasicIterator.deref,
            BasicIterator.incr, hn, hnd, hpred, hrec]

theorem cross_isList (pred : α → α → Bool) {m : Mem α} {A B : Nat} {la lb : List (Nat × α)}
    (fuel : Nat) (hA : IsList m A la) (hB : IsList m B lb)
    (hf : min la.length lb.length ≤ fuel) :
    IsSuccessForAnyCrossItems fuel m A B pred
      = .ret ((List.zip (la.map Prod.snd) (lb.map Prod.snd)).any (fun ab => pred ab.1 ab.2)) := by
  obtain ⟨⟨hdA, hhdA, hsA⟩, -⟩ := hA
  obtain ⟨⟨hdB, hhdB, hsB⟩, -⟩ := hB
  simp [IsSuccessForAnyCrossItems, begin, hhdA, hhdB, cross_loop_seg pred hsA hsB hf]

theorem isList_unique {m : Mem α} {A : Nat} {la lb : List (Nat × α)} (h1 : IsList m A la)
    (h2 : IsList m A lb) : la = lb := by
  obtain ⟨⟨hd1, hhd1, hs1⟩, -⟩ := h1
  obtain ⟨⟨hd2, hhd2, hs2⟩, -⟩ := h2
  rw [hhd1] at hhd2
  cases hhd2
  exact seg_unique hs1 hs2

/-! ## `InsertAfter` -/

theorem InsertAfter_before_begin_eq (m : Mem α) (L : Nat) (x : α) :
    (InsertAfter m L (before_begin L) x).map Prod.fst = PushFront m L x := by
  simp only [InsertAfter, PushFront, before_begin]
  cases hL : m.node L with
  | none => rfl
  | some hd =>
    simp only [new_Node]
    cases hq : m.quota with
    | zero => rfl
    | succ q =>
      simp only []
      split <;> rfl

theorem InsertAfter_head {m : Mem α} {L : Nat} {cells : List (Nat × α)} {x : α}
    (h : Owns m L cells) (hq : 0 < m.quota) :
    ∃ m', InsertAfter m L (before_begin L) x = .ret (m', ⟨some m.brk⟩) ∧
      PushFront m L x = .ret m' := by
  obtain ⟨⟨⟨hd, hhd, hs⟩, hsize⟩, hlt, hcl⟩ := h
  obtain ⟨q, hq'⟩ : ∃ q, m.quota = q + 1 := ⟨m.quota - 1, by omega⟩
  have hne : L ≠ m.brk := by omega
  exact ⟨_, by simp [InsertAfter, before_begin, hhd, new_Node, hq', set_next_node, hne]; rfl,
    by simp [PushFront, hhd, new_Node, hq', set_next_node, hne]⟩

theorem InsertAfter_inner {m : Mem α} {L p : Nat} {pre post : List (Nat × α)} {v x : α}
    (h : Owns m L (pre ++ (p, v) :: post)) (hq : 0 < m.quota) :
    ∃ m', InsertAfter m L ⟨some p⟩ x = .ret (m', ⟨some m.brk⟩) ∧
      Owns m' L (pre ++ (p, v) :: (m.brk, x) :: post) ∧
      (∀ a, a < m.brk → a ≠ p → m'.node a = m.node a) ∧
      (∀ a, a ≠ L → m'.size_ a = m.size_ a) ∧
      m'.brk = m.brk + 1 ∧ m'.quota = m.quota - 1 := by
  obtain ⟨⟨⟨hd, hhd, hs⟩, hsize⟩, hlt, hcl⟩ := h
  obtain ⟨q, hq'⟩ : ∃ q, m.quota = q + 1 := ⟨m.quota - 1, by omega⟩
  have hLnot := seg_not_mem hhd hs
  have hnodup := seg_nodup hs
  obtain ⟨r, hpre, hr, nx, hp, hpost⟩ := seg_append.mp hs
  have hr' : r = some p := hr
  subst hr'
  have hp' : m.node p = some ⟨v, nx⟩ := hp
  have hpb : p ≠ m.brk := by have := hcl (p, v) (by simp); omega
  have hLb : L ≠ m.brk := by omega
  have hLp : L ≠ p := fun e => hLnot (by simp [e])
  rw [List.map_append, List.map_cons, List.nodup_append] at hnodup
  obtain ⟨-, hnd2, hdisj⟩ := hnodup
  have hnd2' := List.nodup_cons.mp hnd2
  refine ⟨_, by simp [InsertAfter, hp', new_Node, hq', set_next_node, hpb]; rfl,
    ?_, ?_, ?_, ?_, ?_⟩
  · refine ⟨⟨⟨hd, by simp [set_size, hLp, hLb, hhd], ?_⟩, ?_⟩, ?_, ?_⟩
    · refine seg_append.mpr ⟨some p, seg_frame (fun c hc => ?_) hpre, rfl, some m.brk, ?_,
        rfl, nx, ?_, seg_frame (fun c hc => ?_) hpost⟩
      · have e1 : c.1 ≠ p := by
          intro e
          exact hdisj (List.mem_map_of_mem _ hc) (e ▸ List.mem_cons_self _ _)
        have e2 : c.1 ≠ m.brk := by have := hcl c (by simp [hc]); omega
        simp [set_size, e1, e2]
      · simp [set_size]
      · simp [set_size, Ne.symm hpb]
      · have e1 : c.1 ≠ p := by
          intro e
          have hcm : c.1 ∈ post.map Prod.fst := List.mem_map_of_mem _ hc
          rw [e] at hcm
          exact hnd2'.1 hcm
        have e2 : c.1 ≠ m.brk := by have := hcl c (by simp [hc]); omega
        simp [set_size, e1, e2]
    · simp [set_size, hsize]; omega
    · simp [set_size]; omega
    · intro c hc
      simp only [List.mem_append, List.mem_cons] at hc
      rcases hc with hc | rfl | rfl | hc
      · have := hcl c (by simp [hc]); simp [set_size]; omega
      · have := hcl (p, v) (by simp); simp [set_size]; omega
      · simp [set_size]
      · have := hcl c (by simp [hc]); simp [set_size]; omega
  · intro a ha hap
    have : a ≠ m.brk := by omega
    simp [set_size, hap, this]
  · intro a haL
    simp [set_size, haL]
  · simp [set_size]
  · simp [set_size, hq']

theorem deref_of_owns {m : Mem α} {L : Nat} {cells : List (Nat × α)} {c : Nat × α}
    (h : Owns m L cells) (hc : c ∈ cells) : BasicIterator.deref m ⟨some c.1⟩ = .ret c.2 := by
  obtain ⟨⟨⟨hd, -, hs⟩, -⟩, -, -⟩ := h
  obtain ⟨pre, post, hsplit⟩ := List.append_of_mem hc
  rw [hsplit] at hs
  obtain ⟨r, -, -, nx, hn, -⟩ := seg_append.mp hs
  simp [BasicIterator.deref, hn]

/-! ## The example memory -/

theorem exMem_brk (q : Nat) : (exMem q).brk = 12 :=
  rfl

theorem exMem_owns_0 (q : Nat) : Owns (exMem q) 0 [(2, 1), (1, 2)] :=
  ⟨⟨⟨⟨0, some 2⟩, rfl, rfl, some 1, rfl, rfl, none, rfl, rfl⟩, rfl⟩,
    exMem_brk q ▸ by decide, exMem_brk q ▸ by decide⟩

theorem exMem_owns_3 (q : Nat) : Owns (exMem q) 3 [(5, 2), (4, 1)] :=
  ⟨⟨⟨⟨0, some 5⟩, rfl, rfl, some 4, rfl, rfl, none, rfl, rfl⟩, rfl⟩,
    exMem_brk q ▸ by decide, exMem_brk q ▸ by decide⟩

theorem exMem_owns_6 (q : Nat) : Owns (exMem q) 6 [(7, 1)] :=
  ⟨⟨⟨⟨0, some 7⟩, rfl, rfl, none, rfl, rfl⟩, rfl⟩,
    exMem_brk q ▸ by decide, exMem_brk q ▸ by decide⟩

theorem exMem_owns_8 (q : Nat) : Owns (exMem q) 8 [(11, 1), (10, 2), (9, 3)] :=
  ⟨⟨⟨⟨0, some 11⟩, rfl, rfl, some 10, rfl, rfl, some 9, rfl, rfl, none, rfl, rfl⟩, rfl⟩,
    exMem_brk q ▸ by decide, exMem_brk q ▸ by decide⟩

theorem view_of_owns {m : Mem α} {l : Nat} {cells : List (Nat × α)} (fuel : Nat)
    (h : Owns m l cells) (hf : cells.length ≤ fuel) :
    GetSize m l = cells.length ∧ elements fuel m l = .ret (cells.map Prod.snd) :=
  ⟨h.1.2, elements_isList h.1 hf⟩

/-! ## The claims -/

/-- C1 (the code departs from the claim): `operator==` does not compare the
sizes of two distinct lists.  For the lists `{}` and `{1}`, of sizes 0 and 1,
`{} == {1}` returns `true`; with the operands the other way round, as in
`{1, 2} == {1}`, `std::equal` runs past the end of the shorter right-hand
list and dereferences its null end iterator. -/
theorem operator_eq_ignores_size :
    with_two_lists 1 ([] : List Nat) [1] (operator_eq 1) = .ret true ∧
    with_two_lists 1 ([] : List Nat) [1] (fun m a b => .ret (GetSize m a, GetSize m b))
      = .ret (0, 1) ∧
    with_two_lists 3 ([1, 2] : List Nat) [1] (operator_eq 2) = .ub :=
  ⟨rfl, rfl, rfl⟩

/-- C2, as stated, fails: the range constructor run on the source `1, 2, 3`
gives a list that traverses as `3, 2, 1`, not as `1, 2, 3`. -/
theorem ctor_range_order_counterexample :
    Res.view 3 0 (ctor_range 0 (Mem.empty 3 : Mem Nat) [1, 2, 3]) = some ([3, 2, 1], 3) ∧
    Res.view 3 0 (ctor_range 0 (Mem.empty 3 : Mem Nat) [1, 2, 3]) ≠ some ([1, 2, 3], 3) := by
  decide

/-- C2, amended: when no allocation fails, the range constructor returns a
new list object whose traversal from `begin()` to `end()` is the source
sequence in reverse order, and whose size is the length of the source. -/
theorem ctor_range_reverses [Inhabited α] (m : Mem α) (s : List α) (fuel : Nat)
    (hq : s.length ≤ m.quota) :
    ∃ m' cells, ctor_range fuel m s = .ret (m', m.brk) ∧ Owns m' m.brk cells ∧
      cells.map Prod.snd = s.reverse ∧ GetSize m' m.brk = s.length ∧
      ∀ fuel', s.length ≤ fuel' → elements fuel' m' m.brk = .ret s.reverse := by
  obtain ⟨m', cells, hctor, hown, hvals, -⟩ := ctor_range_ret s fuel hq
  have hlen : cells.length = s.length := by
    have := congrArg List.length hvals
    simpa using this
  refine ⟨m', cells, hctor, hown, hvals, by rw [GetSize, hown.1.2, hlen], fun fuel' hf => ?_⟩
  rw [← hvals]
  exact elements_isList hown.1 (by omega)

theorem ctor_range_reverses_witness :
    ∃ m' cells, ctor_range 0 (Mem.empty 3 : Mem Nat) [1, 2, 3] = .ret (m', 0) ∧
      Owns m' 0 cells ∧ cells.map Prod.snd = [3, 2, 1] ∧ GetSize m' 0 = 3 ∧
      ∀ fuel', 3 ≤ fuel' → elements fuel' m' 0 = .ret [3, 2, 1] :=
  ctor_range_reverses (Mem.empty 3) [1, 2, 3] 0 (by decide)

/-- C3: when no allocation fails, the initializer-list constructor returns a
new list object whose traversal from `begin()` to `end()` is exactly the
literal sequence, in its order, and whose size is the length of the sequence. -/
theorem ctor_initializer_list_order [Inhabited α] (m : Mem α) (vs : List α) (fuel : Nat)
    (hq : vs.length ≤ m.quota) :
    ∃ m' cells, ctor_initializer_list fuel m vs = .ret (m', m.brk) ∧ Owns m' m.brk cells ∧
      cells.map Prod.snd = vs ∧ GetSize m' m.brk = vs.length ∧
      ∀ fuel', vs.length ≤ fuel' → elements fuel' m' m.brk = .ret vs := by
  obtain ⟨m', cells, hctor, hown, hvals, -⟩ :=
    ctor_range_ret vs.reverse fuel (by simpa using hq)
  rw [List.reverse_reverse] at hvals
  have hlen : cells.length = vs.length := by
    have := congrArg List.length hvals
    simpa using this
  refine ⟨m', cells, hctor, hown, hvals, by rw [GetSize, hown.1.2, hlen], fun fuel' hf => ?_⟩
  rw [← hvals]
  exact elements_isList hown.1 (by omega)

theorem ctor_initializer_list_order_witness :
    ∃ m' cells, ctor_initializer_list 0 (Mem.empty 3 : Mem Nat) [1, 2, 3] = .ret (m', 0) ∧
      Owns m' 0 cells ∧ cells.map Prod.snd = [1, 2, 3] ∧ GetSize m' 0 = 3 ∧
      ∀ fuel', 3 ≤ fuel' → elements fuel' m' 0 = .ret [1, 2, 3] :=
  ctor_initializer_list_order (Mem.empty 3) [1, 2, 3] 0 (by decide)

/-- C4: let `A` and `B` be list objects of one memory, the same object or two
objects sharing no node, and let no allocation fail.  The copy assignment
`A = B` returns; afterwards `A` is a well-formed list with the elements of `B`
in the order of `B` and with the size of `B`, and `B` still owns the very
nodes it owned, with its elements and size.  The same holds for the object the
copy constructor makes from `B`.  An empty `B` is included. -/
theorem copy_assignment_copies [Inhabited α] (m : Mem α) (A B : Nat) (la lb : List (Nat × α))
    (fuel : Nat) (hA : Owns m A la) (hB : Owns m B lb) (hap : A ≠ B → Apart A B la lb)
    (hq : lb ≠ [] → lb.length < m.quota) (hfa : la.length ≤ fuel) (hfb : lb.length ≤ fuel) :
    (∃ m' la', operator_assign fuel m A B = .ret m' ∧
        Owns m' A la' ∧ la'.map Prod.snd = lb.map Prod.snd ∧ Owns m' B lb ∧
        GetSize m' A = GetSize m B ∧ elements fuel m' A = elements fuel m B ∧
        GetSize m' B = GetSize m B ∧ elements fuel m' B = elements fuel m B) ∧
    (∃ m' lc, ctor_copy fuel m B = .ret (m', m.brk) ∧
        Owns m' m.brk lc ∧ lc.map Prod.snd = lb.map Prod.snd ∧ Owns m' B lb ∧
        GetSize m' m.brk = GetSize m B ∧ elements fuel m' m.brk = elements fuel m B ∧
        GetSize m' B = GetSize m B ∧ elements fuel m' B = elements fuel m B) := by
  have hview : ∀ {m' : Mem α} {X : Nat} {lx : List (Nat × α)}, Owns m' X lx →
      lx.map Prod.snd = lb.map Prod.snd →
      GetSize m' X = GetSize m B ∧ elements fuel m' X = elements fuel m B := by
    intro m' X lx hX hvals
    have hlen : lx.length = lb.length := by
      have := congrArg List.length hvals
      simpa using this
    obtain ⟨h1, h2⟩ := view_of_owns fuel hX (by omega)
    obtain ⟨h3, h4⟩ := view_of_owns fuel hB hfb
    exact ⟨by rw [h1, h3, hlen], by rw [h2, h4, hvals]⟩
  constructor
  · have key : ∃ m' la', operator_assign fuel m A B = .ret m' ∧
        Owns m' A la' ∧ la'.map Prod.snd = lb.map Prod.snd ∧ Owns m' B lb := by
      by_cases hAB : A = B
      · subst hAB
        exact ⟨m, lb, by simp [operator_assign], hB, rfl, hB⟩
      · by_cases hne : lb = []
        · subst hne
          obtain ⟨m', h1, h2, h3⟩ := operator_assign_empty fuel hA hB (hap hAB) hfa
          exact ⟨m', [], h1, h2, rfl, h3⟩
        · exact operator_assign_ret fuel hA hB (hap hAB) hne (hq hne) hfa hfb
    obtain ⟨m', la', h1, h2, h3, h4⟩ := key
    exact ⟨m', la', h1, h2, h3, h4, (hview h2 h3).1, (hview h2 h3).2, (hview h4 rfl).1,
      (hview h4 rfl).2⟩
  · obtain ⟨m', lc, h1, h2, h3, h4⟩ := ctor_copy_ret hB hq hfb
    exact ⟨m', lc, h1, h2, h3, h4, (hview h2 h3).1, (hview h2 h3).2, (hview h4 rfl).1,
      (hview h4 rfl).2⟩

theorem copy_assignment_copies_witness :
    (∃ m', operator_assign 3 (exMem 5) 0 8 = .ret m' ∧
        GetSize m' 0 = 3 ∧ elements 3 m' 0 = .ret [1, 2, 3] ∧
        GetSize m' 8 = 3 ∧ elements 3 m' 8 = .ret [1, 2, 3]) ∧
    (∃ m', ctor_copy 3 (exMem 5) 8 = .ret (m', 12) ∧
        GetSize m' 12 = 3 ∧ elements 3 m' 12 = .ret [1, 2, 3]) := by
  obtain ⟨⟨m1, _, h1, -, -, -, h2, h3, h4, h5⟩, ⟨m2, _, g1, -, -, -, g2, g3, -, -⟩⟩ :=
    copy_assignment_copies (exMem 5) 0 8 _ _ 3 (exMem_owns_0 5) (exMem_owns_8 5)
      (fun _ => by unfold Apart; decide) (fun _ => by decide) (by decide) (by decide)
  exact ⟨⟨m1, h1, h2, h3, h4, h5⟩, ⟨m2, g1, g2, g3⟩⟩

/-- C5: the strong guarantee of the copy assignment.  Let `A` and `B` be two
list objects sharing no node, `B` not empty.  `A = B` takes one fallible step
for the buffer and one for each node of the copy; when one of them fails (the
quota is at most the size of `B`), the call throws, and in the memory it
leaves behind `A` owns the very nodes it owned, with the same elements and
the same size (and so does `B`). -/
theorem copy_assignment_strong_guarantee [Inhabited α] (m : Mem α) (A B : Nat)
    (la lb : List (Nat × α)) (fuel : Nat) (hA : Owns m A la) (hB : Owns m B lb)
    (hap : Apart A B la lb) (hne : lb ≠ []) (hq : m.quota ≤ lb.length)
    (hfa : la.length ≤ fuel) (hfb : lb.length ≤ fuel) :
    ∃ m', operator_assign fuel m A B = .throw m' ∧ Owns m' A la ∧ Owns m' B lb ∧
      GetSize m' A = GetSize m A ∧ elements fuel m' A = elements fuel m A := by
  obtain ⟨m', h1, h2, h3⟩ := operator_assign_throw hA hB hap hne hq hfb
  obtain ⟨a1, a2⟩ := view_of_owns fuel h2 hfa
  obtain ⟨b1, b2⟩ := view_of_owns fuel hA hfa
  exact ⟨m', h1, h2, h3, by rw [a1, b1], by rw [a2, b2]⟩

theorem copy_assignment_strong_guarantee_witness :
    ∃ m', operator_assign 3 (exMem 2) 6 8 = .throw m' ∧ Owns m' 6 [(7, 1)] ∧
      GetSize m' 6 = GetSize (exMem 2) 6 ∧ elements 3 m' 6 = elements 3 (exMem 2) 6 := by
  obtain ⟨m', h1, h2, -, h3, h4⟩ :=
    copy_assignment_strong_guarantee (exMem 2) 6 8 _ _ 3 (exMem_owns_6 2) (exMem_owns_8 2)
      (by unfold Apart; decide) (by decide) (by decide) (by decide) (by decide)
  exact ⟨m', h1, h2, h3, h4⟩

/-- C6, as stated, fails: a default-constructed list `a` compared with itself
has equal sizes and no position at all, let alone one with `a[i] >= a[i]`, yet
`a < a` returns `false`. -/
theorem operator_lt_same_object_counterexample :
    operator_lt 0 (ctor_default (Mem.empty 0 : Mem Nat)).1 0 0 = .ret false ∧
    elements 0 (ctor_default (Mem.empty 0 : Mem Nat)).1 0 = .ret [] ∧
    ¬ ∃ (i : Nat) (x y : Nat),
      ([] : List Nat)[i]? = some x ∧ ([] : List Nat)[i]? = some y ∧ x ≥ y :=
  ⟨rfl, rfl, by simp⟩

/-- C6, amended: for two lists `a` and `b` of equal size, `a < b` returns, and
it returns `true` if and only if `a` and `b` are distinct objects and there is
no position `i` whose paired elements satisfy `a[i] >= b[i]`; for the same
object it returns `false`. -/
theorem operator_lt_equal_size [LE α] [DecidableRel (fun a b : α => a ≤ b)] (m : Mem α)
    (A B : Nat) (la lb : List (Nat × α)) (fuel : Nat) (hA : IsList m A la)
    (hB : IsList m B lb) (hlen : la.length = lb.length) (hf : la.length ≤ fuel) :
    ∃ r, operator_lt fuel m A B = .ret r ∧
      (r = true ↔ A ≠ B ∧ ¬ ∃ (i : Nat) (x y : α),
        (la.map Prod.snd)[i]? = some x ∧ (lb.map Prod.snd)[i]? = some y ∧ x ≥ y) := by
  have hsz : m.size_ A = m.size_ B := by rw [hA.2, hB.2, hlen]
  by_cases hAB : A = B
  · exact ⟨false, by simp [operator_lt, IsEqualByRefs, hsz, hAB], by simp [hAB]⟩
  · have hcross := cross_isList (fun val val_other => decide (val ≥ val_other)) fuel hA hB
      (by omega)
    refine ⟨!((List.zip (la.map Prod.snd) (lb.map Prod.snd)).any
        (fun ab => decide (ab.1 ≥ ab.2))), ?_, ?_⟩
    · simp only [operator_lt, IsEqualByRefs, hsz, hcross]
      simp [hAB]
    · rw [Bool.not_eq_true', ← Bool.not_eq_true,
        any_zip_iff (fun val val_other => decide (val ≥ val_other))]
      simp [hAB]

theorem operator_lt_equal_size_witness :
    operator_lt 2 (exMem 0) 0 3 = .ret false := by
  obtain ⟨r, h1, h2⟩ :=
    operator_lt_equal_size (exMem 0) 0 3 _ _ 2 (exMem_owns_0 0).1 (exMem_owns_3 0).1 rfl
      (by decide)
  cases r with
  | false => exact h1
  | true => exact absurd ⟨1, 2, 1, rfl, rfl, by decide⟩ (h2.mp rfl).2

/-- C7: for two lists `a` and `b` of equal size (the same object or not),
`a <= b` returns, and it returns `true` if and only if there is no position
`i` whose paired elements satisfy `a[i] > b[i]`. -/
theorem operator_le_equal_size [Preorder α] [DecidableRel (fun a b : α => a < b)] (m : Mem α)
    (A B : Nat) (la lb : List (Nat × α)) (fuel : Nat) (hA : IsList m A la)
    (hB : IsList m B lb) (hlen : la.length = lb.length) (hf : la.length ≤ fuel) :
    ∃ r, operator_le fuel m A B = .ret r ∧
      (r = true ↔ ¬ ∃ (i : Nat) (x y : α),
        (la.map Prod.snd)[i]? = some x ∧ (lb.map Prod.snd)[i]? = some y ∧ x > y) := by
  have hsz : m.size_ A = m.size_ B := by rw [hA.2, hB.2, hlen]
  by_cases hAB : A = B
  · subst hAB
    have hll := isList_unique hA hB
    subst hll
    refine ⟨true, by simp [operator_le, IsEqualByRefs], ?_⟩
    simp only [true_iff]
    rintro ⟨i, x, y, hx, hy, hxy⟩
    rw [hx] at hy
    cases hy
    exact lt_irrefl _ hxy
  · have hcross := cross_isList (fun val val_other => decide (val > val_other)) fuel hA hB
      (by omega)
    refine ⟨!((List.zip (la.map Prod.snd) (lb.map Prod.snd)).any
        (fun ab => decide (ab.1 > ab.2))), ?_, ?_⟩
    · simp only [operator_le, IsEqualByRefs, hsz, hcross]
      simp [hAB]
    · rw [Bool.not_eq_true', ← Bool.not_eq_true,
        any_zip_iff (fun val val_other => decide (val > val_other))]
      simp

theorem operator_le_equal_size_witness :
    operator_le 2 (exMem 0) 0 3 = .ret false := by
  obtain ⟨r, h1, h2⟩ :=
    operator_le_equal_size (exMem 0) 0 3 _ _ 2 (exMem_owns_0 0).1 (exMem_owns_3 0).1 rfl
      (by decide)
  cases r with
  | false => exact h1
  | true => exact absurd ⟨1, 2, 1, rfl, rfl, by decide⟩ (h2.mp rfl)

/-- C8: for two lists whose sizes differ, `a < b` and `a <= b` both return
`size(a) < size(b)`, whatever the elements (and whatever the fuel: no element
is read). -/
theorem ordering_by_size_when_sizes_differ [LE α] [LT α]
    [DecidableRel (fun a b : α => a ≤ b)] [DecidableRel (fun a b : α => a < b)] (m : Mem α)
    (a b : Nat) (fuel : Nat)
    (h : GetSize m a ≠ GetSize m b) :
    operator_lt fuel m a b = .ret (decide (GetSize m a < GetSize m b)) ∧
    operator_le fuel m a b = .ret (decide (GetSize m a < GetSize m b)) := by
  have h' : m.size_ a ≠ m.size_ b := h
  constructor
  · simp [operator_lt, IsEqualByRefs, h', GetSize]
  · simp [operator_le, IsEqualByRefs, h', GetSize]

theorem ordering_by_size_when_sizes_differ_witness :
    operator_lt 0 (exMem 0) 6 8 = .ret true ∧ operator_le 0 (exMem 0) 6 8 = .ret true :=
  ordering_by_size_when_sizes_differ (exMem 0) 6 8 0 (by decide)

/-- C9: for a list `L` and a value `x`, `InsertAfter(before_begin(), x)` and
`PushFront(x)` end the same way and leave the same memory.  When the
allocation succeeds, both return, the new node holds `x` and is the first of
`L`, the former nodes follow in their order, and the size has grown by one;
when it fails, both throw and leave the memory as it was. -/
theorem InsertAfter_before_begin_is_PushFront (m : Mem α) (L : Nat) (cells : List (Nat × α))
    (x : α) (h : Owns m L cells) :
    (InsertAfter m L (before_begin L) x).map Prod.fst = PushFront m L x ∧
    (0 < m.quota →
      ∃ m', InsertAfter m L (before_begin L) x = .ret (m', ⟨some m.brk⟩) ∧
        PushFront m L x = .ret m' ∧ Owns m' L ((m.brk, x) :: cells) ∧
        GetSize m' L = GetSize m L + 1 ∧
        ∀ fuel, cells.length < fuel → elements fuel m' L = .ret (x :: cells.map Prod.snd)) ∧
    (m.quota = 0 →
      InsertAfter m L (before_begin L) x = .throw m ∧ PushFront m L x = .throw m) := by
  refine ⟨InsertAfter_before_begin_eq m L x, fun hq => ?_, fun hq => ?_⟩
  · obtain ⟨m', hins, hpush⟩ := InsertAfter_head (x := x) h hq
    obtain ⟨m'', hpush', hown, -⟩ := PushFront_owns (x := x) h hq
    rw [hpush] at hpush'
    cases hpush'
    refine ⟨m', hins, hpush, hown, ?_, fun fuel hf => ?_⟩
    · rw [GetSize, GetSize, hown.1.2, h.1.2]; rfl
    · exact elements_isList hown.1 (by simpa using hf)
  · obtain ⟨hd, hhd, -⟩ := h.1.1
    exact ⟨by simp [InsertAfter, before_begin, hhd, new_Node, hq], PushFront_throw hhd hq⟩

theorem InsertAfter_before_begin_is_PushFront_witness :
    (InsertAfter (exMem 1) 0 (before_begin 0) 7).map Prod.fst = PushFront (exMem 1) 0 7 ∧
    ∃ m', InsertAfter (exMem 1) 0 (before_begin 0) 7 = .ret (m', ⟨some 12⟩) ∧
      PushFront (exMem 1) 0 7 = .ret m' ∧ GetSize m' 0 = 3 ∧
      elements 3 m' 0 = .ret [7, 1, 2] := by
  obtain ⟨h1, h2, -⟩ := InsertAfter_before_begin_is_PushFront (exMem 1) 0 _ 7 (exMem_owns_0 1)
  obtain ⟨m', g1, g2, -, g3, g4⟩ := h2 (by decide)
  exact ⟨h1, m', g1, g2, g3, g4 3 (by decide)⟩

/-- C10: let `p` be a valid position of the list `L`, the `k`-th node of the
chain that starts with the sentinel: the position before the first element for
`k = 0`, the element of index `i` for `k = i + 1`.  When the allocation
succeeds, `InsertAfter(p, x)` returns an iterator to the new node, whose
dereference is `x`; the new node stands right after `p` and before the former
successor of `p` (the first `k` elements, then `x`, then the others, all in
their previous order), and the size has grown by exactly one. -/
theorem InsertAfter_places_after_position (m : Mem α) (L : Nat) (cells : List (Nat × α))
    (x : α) (k p : Nat) (h : Owns m L cells) (hq : 0 < m.quota)
    (hpos : (L :: cells.map Prod.fst)[k]? = some p) :
    ∃ m', InsertAfter m L ⟨some p⟩ x = .ret (m', ⟨some m.brk⟩) ∧
      Owns m' L (cells.take k ++ (m.brk, x) :: cells.drop k) ∧
      GetSize m' L = GetSize m L + 1 ∧
      BasicIterator.deref m' ⟨some m.brk⟩ = .ret x ∧
      ∀ fuel, cells.length < fuel →
        elements fuel m' L
          = .ret ((cells.map Prod.snd).take k ++ x :: (cells.map Prod.snd).drop k) := by
  have key : ∃ m', InsertAfter m L ⟨some p⟩ x = .ret (m', ⟨some m.brk⟩) ∧
      Owns m' L (cells.take k ++ (m.brk, x) :: cells.drop k) := by
    cases k with
    | zero =>
      have hp : L = p := by simpa using hpos
      subst hp
      obtain ⟨m', hins, hpush⟩ := InsertAfter_head (x := x) h hq
      obtain ⟨m'', hpush', hown, -⟩ := PushFront_owns (x := x) h hq
      rw [hpush] at hpush'
      cases hpush'
      exact ⟨m', hins, by simpa using hown⟩
    | succ j =>
      have hpos' : (cells.map Prod.fst)[j]? = some p := by simpa using hpos
      rw [List.getElem?_map] at hpos'
      obtain ⟨c, hc, hcp⟩ := Option.map_eq_some'.mp hpos'
      obtain ⟨hj, hcj⟩ := List.getElem?_eq_some.mp hc
      have hsplit : cells = cells.take j ++ (p, c.2) :: cells.drop (j + 1) := by
        have e : (p, c.2) = cells[j] := by rw [hcj, ← hcp]
        rw [e, ← List.drop_eq_getElem_cons hj, List.take_append_drop]
      have htake : cells.take (j + 1) = cells.take j ++ [(p, c.2)] := by
        rw [List.take_succ, hc, ← hcp]; rfl
      have h' : Owns m L (cells.take j ++ (p, c.2) :: cells.drop (j + 1)) := by
        rw [← hsplit]; exact h
      obtain ⟨m', hins, hown, -⟩ := InsertAfter_inner (x := x) h' hq
      refine ⟨m', hins, ?_⟩
      rw [htake, List.append_assoc]
      exact hown
  obtain ⟨m', hins, hown⟩ := key
  have hk : k ≤ cells.length := by
    have := (List.getElem?_eq_some.mp hpos).1
    simpa using Nat.lt_succ_iff.mp (by simpa using this)
  have hlen : (cells.take k ++ (m.brk, x) :: cells.drop k).length = cells.length + 1 := by
    simp; omega
  refine ⟨m', hins, hown, ?_, ?_, fun fuel hf => ?_⟩
  · rw [GetSize, GetSize, hown.1.2, h.1.2, hlen]
  · exact deref_of_owns (c := (m.brk, x)) hown (by simp)
  · rw [elements_isList hown.1 (by omega)]
    simp [List.map_take, List.map_drop]

theorem InsertAfter_places_after_position_witness :
    ∃ m', InsertAfter (exMem 1) 8 ⟨some 10⟩ 7 = .ret (m', ⟨some 12⟩) ∧
      GetSize m' 8 = 4 ∧ BasicIterator.deref m' ⟨some 12⟩ = .ret 7 ∧
      elements 4 m' 8 = .ret [1, 2, 7, 3] := by
  obtain ⟨m', h1, -, h2, h3, h4⟩ :=
    InsertAfter_places_after_position (exMem 1) 8 _ 7 2 10 (exMem_owns_8 1) (by decide) rfl
  exact ⟨m', h1, h2, h3, h4 4 (by decide)⟩

/-! ## `PopFront` and `EraseAfter` -/

theorem PopFront_owns {m : Mem α} {L e : Nat} {w : α} {rest : List (Nat × α)}
    (h : Owns m L ((e, w) :: rest)) :
    ∃ m', PopFront m L = .ret m' ∧ Owns m' L rest ∧
      (∀ a, a ≠ L → a ≠ e → m'.node a = m.node a) ∧
      (∀ a, a ≠ L → m'.size_ a = m.size_ a) ∧
      m'.brk = m.brk ∧ m'.quota = m.quota := by
  obtain ⟨⟨⟨hd, hhd, hs⟩, hsize⟩, hlt, hcl⟩ := h
  have hLnot := seg_not_mem hhd hs
  have hnodup := seg_nodup hs
  obtain ⟨hnext, nx, hn, hrest⟩ := hs
  have hn' : m.node e = some ⟨w, nx⟩ := hn
  have hnext' : hd.next_node = some e := hnext
  have hLe : L ≠ e := fun h => hLnot (by simp [h])
  have hsz : m.size_ L ≠ 0 := by rw [hsize]; simp
  rw [List.map_cons, List.nodup_cons] at hnodup
  refine ⟨_, by simp [PopFront, hsz, hhd, hnext', hn', set_next_node]; rfl, ?_, ?_, ?_, ?_, ?_⟩
  · refine ⟨⟨⟨⟨hd.value, nx⟩, by simp [set_size, delete_Node, hLe], ?_⟩, ?_⟩, ?_, ?_⟩
    · refine seg_frame (fun c hc => ?_) hrest
      have hcm : c.1 ∈ rest.map Prod.fst := List.mem_map_of_mem _ hc
      have e1 : c.1 ≠ e := fun h => hnodup.1 (h ▸ hcm)
      have e2 : c.1 ≠ L := fun h => hLnot (by rw [← h]; exact List.mem_cons_of_mem _ hcm)
      simp [set_size, delete_Node, e1, e2]
    · simp [set_size, hsize]
    · simpa [set_size, delete_Node] using hlt
    · intro c hc
      have := hcl c (List.mem_cons_of_mem _ hc)
      simpa [set_size, delete_Node] using this
  · intro a haL hae
    simp [set_size, delete_Node, haL, hae]
  · intro a haL
    simp [set_size, delete_Node, haL]
  · simp [set_size, delete_Node]
  · simp [set_size, delete_Node]

theorem EraseAfter_head {m : Mem α} {L e : Nat} {w : α} {rest : List (Nat × α)}
    (h : Owns m L ((e, w) :: rest)) :
    ∃ m', EraseAfter m L (before_begin L) = .ret (m', ⟨(rest.map Prod.fst).head?⟩) ∧
      PopFront m L = .ret m' := by
  obtain ⟨⟨⟨hd, hhd, hs⟩, hsize⟩, hlt, hcl⟩ := h
  have hLnot := seg_not_mem hhd hs
  obtain ⟨hnext, nx, hn, hrest⟩ := hs
  have hn' : m.node e = some ⟨w, nx⟩ := hn
  have hnext' : hd.next_node = some e := hnext
  have hLe : L ≠ e := fun h => hLnot (by simp [h])
  have hsz : m.size_ L ≠ 0 := by rw [hsize]; simp
  have hhead : nx = (rest.map Prod.fst).head? := by
    cases rest with
    | nil => exact hrest
    | cons c r => exact hrest.1
  refine ⟨set_size (delete_Node { m with
      node := fun a => if a = L then some ⟨hd.value, nx⟩ else m.node a } e) L (m.size_ L - 1),
    ?_, by simp [PopFront, hsz, hhd, hnext', hn', set_next_node]⟩
  simp [EraseAfter, before_begin, hsz, hhd, hnext', hn', set_next_node, set_size, delete_Node,
    hLe, hhead]

theorem EraseAfter_inner {m : Mem α} {L p e : Nat} {pre post : List (Nat × α)} {v w : α}
    (h : Owns m L (pre ++ (p, v) :: (e, w) :: post)) :
    ∃ m', EraseAfter m L ⟨some p⟩ = .ret (m', ⟨(post.map Prod.fst).head?⟩) ∧
      Owns m' L (pre ++ (p, v) :: post) ∧
      (∀ a, a ≠ p → a ≠ e → m'.node a = m.node a) ∧
      (∀ a, a ≠ L → m'.size_ a = m.size_ a) ∧
      m'.brk = m.brk ∧ m'.quota = m.quota := by
  obtain ⟨⟨⟨hd, hhd, hs⟩, hsize⟩, hlt, hcl⟩ := h
  have hLnot := seg_not_mem hhd hs
  have hnodup := seg_nodup hs
  obtain ⟨r, hpre, hr, ne, hp, hne, nx, he, hpost⟩ := seg_append.mp hs
  have hr' : r = some p := hr
  subst hr'
  have he' : m.node e = some ⟨w, nx⟩ := he
  have hp' : m.node p = some ⟨v, some e⟩ := by
    have h1 : m.node p = some ⟨v, ne⟩ := hp
    have h2 : ne = some e := hne
    rw [h1, h2]
  have hsz : m.size_ L ≠ 0 := by rw [hsize]; simp
  have hhead : nx = (post.map Prod.fst).head? := by
    cases post with
    | nil => exact hpost
    | cons c r => exact hpost.1
  have hLp : L ≠ p := fun e => hLnot (by simp [e])
  have hLe : L ≠ e := fun e => hLnot (by simp [e])
  rw [List.map_append, List.map_cons, List.map_cons, List.nodup_append] at hnodup
  obtain ⟨-, hnd2, hdisj⟩ := hnodup
  obtain ⟨hp_notin, hnd3⟩ := List.nodup_cons.mp hnd2
  obtain ⟨he_notin, -⟩ := List.nodup_cons.mp hnd3
  have hpe : p ≠ e := fun h => hp_notin (by simp [h])
  refine ⟨set_size (delete_Node { m with
      node := fun a => if a = p then some ⟨v, nx⟩ else m.node a } e) L (m.size_ L - 1),
    ?_, ?_, ?_, ?_, ?_, ?_⟩
  · simp [EraseAfter, hsz, hp', he', set_next_node, set_size, delete_Node, hpe, hhead]
  · refine ⟨⟨⟨hd, by simp [set_size, delete_Node, hLp, hLe, hhd], ?_⟩, ?_⟩, ?_, ?_⟩
    · refine seg_append.mpr ⟨some p, seg_frame (fun c hc => ?_) hpre, rfl, nx, ?_,
        seg_frame (fun c hc => ?_) hpost⟩
      · have hcm : c.1 ∈ pre.map Prod.fst := List.mem_map_of_mem _ hc
        have e1 : c.1 ≠ p := fun h => hdisj hcm (by simp [h])
        have e2 : c.1 ≠ e := fun h => hdisj hcm (by simp [h])
        simp [set_size, delete_Node, e1, e2]
      · simp [set_size, delete_Node, hpe]
      · have hcm : c.1 ∈ post.map Prod.fst := List.mem_map_of_mem _ hc
        have e1 : c.1 ≠ p := fun h => hp_notin (by rw [← h]; exact List.mem_cons_of_mem _ hcm)
        have e2 : c.1 ≠ e := fun h => he_notin (h ▸ hcm)
        simp [set_size, delete_Node, e1, e2]
    · simp [set_size, hsize]
    · simpa [set_size, delete_Node] using hlt
    · intro c hc
      have : c ∈ pre ++ (p, v) :: (e, w) :: post := by
        simp only [List.mem_append, List.mem_cons] at hc ⊢
        tauto
      simpa [set_size, delete_Node] using hcl c this
  · intro a hap hae
    simp [set_size, delete_Node, hap, hae]
  · intro a haL
    simp [set_size, delete_Node, haL]
  · simp [set_size, delete_Node]
  · simp [set_size, delete_Node]

/-! ## More on comparisons -/

theorem std_equal_seg [DecidableEq α] {m : Mem α} {ca : List (Nat × α)} :
    ∀ {cb : List (Nat × α)} {p q : Option Nat} {fuel : Nat}, Seg m.node p ca none →
    Seg m.node q cb none → ca.length ≤ cb.length → ca.length ≤ fuel →
    std_equal fuel m ⟨p⟩ end_ ⟨q⟩
      = .ret (decide ((cb.map Prod.snd).take ca.length = ca.map Prod.snd)) := by
  induction ca with
  | nil =>
    intro cb p q fuel hp _ _ _
    have : p = none := hp
    subst this
    cases fuel <;> simp [std_equal, BasicIterator.eq, end_]
  | cons c ra ih =>
    intro cb p q fuel hp hq hlen hf
    obtain ⟨hpc, nx, hn, hra⟩ := hp
    subst hpc
    cases cb with
    | nil => simp at hlen
    | cons d rb =>
      obtain ⟨hqd, ny, hnd, hrb⟩ := hq
      subst hqd
      cases fuel with
      | zero => simp at hf
      | succ f =>
        have hrec := ih hra hrb (by simpa using hlen) (by simpa using hf)
        simp only [end_] at hrec
        by_cases hcd : c.2 = d.2
        · simp [std_equal, BasicIterator.eq, end_, BasicIterator.deref, BasicIterator.incr,
            hn, hnd, hcd, hrec]
        · have hdc : ¬ d.2 = c.2 := fun h => hcd h.symm
          simp [std_equal, BasicIterator.eq, end_, BasicIterator.deref, hn, hnd, hcd, hdc]

theorem cross_loop_weaken (pred1 pred2 : α → α → Bool)
    (hpred : ∀ x y, pred2 x y = true → pred1 x y = true) {m : Mem α} :
    ∀ {fuel : Nat} {p q : BasicIterator},
    IsSuccessForAnyCrossItems_loop pred1 fuel m p q = .ret false →
    IsSuccessForAnyCrossItems_loop pred2 fuel m p q = .ret false := by
  intro fuel
  induction fuel with
  | zero =>
    intro p q h
    simpa [IsSuccessForAnyCrossItems_loop] using h
  | succ f ih =>
    intro p q h
    simp only [IsSuccessForAnyCrossItems_loop] at h ⊢
    split at h
    · rename_i hcond
      rw [if_pos hcond]
      split at h
      · rename_i val val_other hv hvo
        split at h
        · cases h
        · rename_i hp1
          have hp2 : ¬ pred2 val val_other = true := fun h2 => hp1 (hpred _ _ h2)
          rw [if_neg hp2]
          split at h
          · exact ih h
          · cases h
      · cases h
    · rename_i hcond
      rw [if_neg hcond]

/-! ## More on `swap` -/

theorem mem_ext {m m' : Mem α} (h1 : ∀ a, m.node a = m'.node a)
    (h2 : ∀ a, m.size_ a = m'.size_ a) (h3 : m.brk = m'.brk) (h4 : m.quota = m'.quota) :
    m = m' := by
  cases m; cases m'
  simp only [Mem.mk.injEq]
  exact ⟨funext h1, funext h2, h3, h4⟩

theorem swap_self {m : Mem α} {A : Nat} {hd : Node α} (hA : m.node A = some hd) :
    swap m A A = .ret m := by
  simp only [swap, hA, set_next_node, if_pos, set_size]
  congr 1
  apply mem_ext <;> try rfl
  · intro a
    by_cases e : a = A
    · simp [e, hA]
    · simp [e]
  · intro a
    by_cases e : a = A
    · simp [e]
    · simp [e]

theorem swap_swap {m m1 : Mem α} {A B : Nat} (h : swap m A B = .ret m1) :
    swap m1 A B = .ret m := by
  cases hA : m.node A with
  | none => simp [swap, hA] at h
  | some hd =>
    cases hB : m.node B with
    | none => simp [swap, hA, hB] at h
    | some od =>
      by_cases hAB : A = B
      · subst hAB
        rw [swap_self hA] at h
        cases h
        exact swap_self hA
      · have hBA : B ≠ A := fun e => hAB e.symm
        simp [swap, hA, hB, set_next_node, hBA] at h
        subst h
        simp [swap, set_next_node, set_size, hAB, hBA]
        apply mem_ext <;> try rfl
        · intro a
          by_cases e1 : a = B
          · simp [e1, hB]
          · by_cases e2 : a = A
            · simp [e2, hAB, hA]
            · simp [e1, e2]
        · intro a
          by_cases e1 : a = B
          · simp [e1]
          · by_cases e2 : a = A
            · simp [e2, hAB]
            · simp [e1, e2]

theorem node_of_mem_owns {m : Mem α} {L : Nat} {cells : List (Nat × α)} {c : Nat × α}
    (h : Owns m L cells) (hc : c ∈ cells) : ∃ nx, m.node c.1 = some ⟨c.2, nx⟩ := by
  obtain ⟨⟨⟨hd, -, hs⟩, -⟩, -, -⟩ := h
  obtain ⟨pre, post, hsplit⟩ := List.append_of_mem hc
  rw [hsplit] at hs
  obtain ⟨r, -, -, nx, hn, -⟩ := seg_append.mp hs
  exact ⟨nx, hn⟩

theorem node_of_position {m : Mem α} {L : Nat} {cells : List (Nat × α)} {k p : Nat}
    (h : Owns m L cells) (hpos : (L :: cells.map Prod.fst)[k]? = some p) :
    ∃ n, m.node p = some n := by
  cases k with
  | zero =>
    have hp : L = p := by simpa using hpos
    subst hp
    obtain ⟨hd, hhd, -⟩ := h.1.1
    exact ⟨hd, hhd⟩
  | succ j =>
    have hpos' : (cells.map Prod.fst)[j]? = some p := by simpa using hpos
    rw [List.getElem?_map] at hpos'
    obtain ⟨c, hc, hcp⟩ := Option.map_eq_some'.mp hpos'
    obtain ⟨nx, hn⟩ := node_of_mem_owns h (List.getElem?_mem hc)
    rw [hcp] at hn
    exact ⟨_, hn⟩

/-! ## The claims, continued -/

/-- C11: let `p` be a position of the list `L` that has a successor, the
`k`-th node of the chain that starts with the sentinel (`k = 0` is the position
before the first element, `k = i + 1` the element of index `i`), so that the
successor is the element of index `k`.  `EraseAfter(p)` returns; it removes
exactly that element and keeps all the others in their order, the size drops
by exactly one, and the returned iterator points at the node that followed
the erased one (the former element of index `k + 1`), or is `end()`, the null
iterator, when there was none. -/
theorem EraseAfter_removes_successor (m : Mem α) (L : Nat) (cells : List (Nat × α))
    (k p : Nat) (h : Owns m L cells) (hk : k < cells.length)
    (hpos : (L :: cells.map Prod.fst)[k]? = some p) :
    ∃ m', EraseAfter m L ⟨some p⟩ = .ret (m', ⟨(cells.map Prod.fst)[k + 1]?⟩) ∧
      Owns m' L (cells.take k ++ cells.drop (k + 1)) ∧
      GetSize m' L + 1 = GetSize m L ∧
      (cells.length = k + 1 → (⟨(cells.map Prod.fst)[k + 1]?⟩ : BasicIterator) = end_) ∧
      ∀ fuel, cells.length ≤ fuel →
        elements fuel m' L
          = .ret ((cells.map Prod.snd).take k ++ (cells.map Prod.snd).drop (k + 1)) := by
  have key : ∃ m', EraseAfter m L ⟨some p⟩ = .ret (m', ⟨(cells.map Prod.fst)[k + 1]?⟩) ∧
      Owns m' L (cells.take k ++ cells.drop (k + 1)) := by
    cases k with
    | zero =>
      have hp : L = p := by simpa using hpos
      subst hp
      cases cells with
      | nil => simp at hk
      | cons c rest =>
        obtain ⟨e, w⟩ := c
        obtain ⟨m', hers, hpop⟩ := EraseAfter_head h
        obtain ⟨m'', hpop', hown, -⟩ := PopFront_owns h
        rw [hpop] at hpop'
        cases hpop'
        refine ⟨m', ?_, by simpa using hown⟩
        have hhead : (rest.map Prod.fst).head? = (((e, w) :: rest).map Prod.fst)[0 + 1]? := by
          cases rest <;> simp
        rw [← hhead]
        exact hers
    | succ j =>
      have hpos' : (cells.map Prod.fst)[j]? = some p := by simpa using hpos
      rw [List.getElem?_map] at hpos'
      obtain ⟨c, hc, hcp⟩ := Option.map_eq_some'.mp hpos'
      obtain ⟨hj, hcj⟩ := List.getElem?_eq_some.mp hc
      have hdrop1 : cells.drop j = cells[j] :: cells.drop (j + 1) :=
        List.drop_eq_getElem_cons hj
      have hdrop2 : cells.drop (j + 1) = cells[j + 1] :: cells.drop (j + 1 + 1) :=
        List.drop_eq_getElem_cons hk
      have hcj' : cells[j] = (p, c.2) := by rw [hcj, ← hcp]
      have hsplit : cells = cells.take j ++ (p, c.2) :: (cells[j + 1].1, cells[j + 1].2)
          :: cells.drop (j + 1 + 1) := by
        conv_lhs => rw [← List.take_append_drop j cells, hdrop1, hdrop2, hcj']
      have htake : cells.take (j + 1) = cells.take j ++ [(p, c.2)] := by
        rw [List.take_succ, hc, ← hcp]; rfl
      have h' := h
      rw [hsplit] at h'
      obtain ⟨m', hers, hown, -⟩ := EraseAfter_inner h'
      refine ⟨m', ?_, ?_⟩
      · have hhead : ((cells.drop (j + 1 + 1)).map Prod.fst).head?
            = (cells.map Prod.fst)[j + 1 + 1]? := by
          rw [List.head?_map, List.head?_drop, List.getElem?_map]
        rw [← hhead]
        exact hers
      · rw [htake, List.append_assoc]
        exact hown
  obtain ⟨m', hers, hown⟩ := key
  have hlen : (cells.take k ++ cells.drop (k + 1)).length + 1 = cells.length := by
    simp; omega
  refine ⟨m', hers, hown, ?_, ?_, fun fuel hf => ?_⟩
  · rw [GetSize, GetSize, hown.1.2, h.1.2, hlen]
  · intro hlast
    have : (cells.map Prod.fst)[k + 1]? = none := by
      rw [List.getElem?_eq_none_iff]; simp; omega
    rw [this]; rfl
  · rw [elements_isList hown.1 (by omega)]
    simp [List.map_take, List.map_drop]

theorem EraseAfter_removes_successor_witness :
    ∃ m', EraseAfter (exMem 0) 8 ⟨some 11⟩ = .ret (m', ⟨some 9⟩) ∧
      GetSize m' 8 + 1 = GetSize (exMem 0) 8 ∧ elements 3 m' 8 = .ret [1, 3] := by
  obtain ⟨m', h1, -, h2, -, h3⟩ :=
    EraseAfter_removes_successor (exMem 0) 8 _ 1 11 (exMem_owns_8 0) (by decide) rfl
  exact ⟨m', h1, h2, h3 3 (by decide)⟩

/-- C12: let `A` and `B` be list objects, the same object or two objects
sharing no node.  `A.swap(B)` (and the non-member `swap(A, B)`, which is the
same call) returns; afterwards `A` owns the nodes, and so has the elements and
the size, that `B` had, and `B` those that `A` had.  A second swap returns the
memory the first one started from, so two swaps restore both lists. -/
theorem swap_exchanges_and_is_involutive (m : Mem α) (A B : Nat) (la lb : List (Nat × α))
    (hA : Owns m A la) (hB : Owns m B lb) (hap : A ≠ B → Apart A B la lb) :
    ∃ m1, swap m A B = .ret m1 ∧ swap_free m A B = .ret m1 ∧
      Owns m1 A lb ∧ Owns m1 B la ∧
      GetSize m1 A = GetSize m B ∧ GetSize m1 B = GetSize m A ∧
      (∀ fuel, lb.length ≤ fuel → elements fuel m1 A = .ret (lb.map Prod.snd)) ∧
      (∀ fuel, la.length ≤ fuel → elements fuel m1 B = .ret (la.map Prod.snd)) ∧
      swap m1 A B = .ret m ∧ swap_free m1 A B = .ret m := by
  have key : ∃ m1, swap m A B = .ret m1 ∧ Owns m1 A lb ∧ Owns m1 B la := by
    by_cases hAB : A = B
    · subst hAB
      have hll := isList_unique hA.1 hB.1
      subst hll
      obtain ⟨hd, hhd, -⟩ := hA.1.1
      exact ⟨m, swap_self hhd, hA, hA⟩
    · obtain ⟨-, h1, h2, -⟩ := hap hAB
      obtain ⟨m1, hswap, hA1, hB1, -⟩ := swap_owns hA hB hAB h1 h2
      exact ⟨m1, hswap, hA1, hB1⟩
  obtain ⟨m1, hswap, hA1, hB1⟩ := key
  refine ⟨m1, hswap, hswap, hA1, hB1, ?_, ?_, fun fuel hf => elements_isList hA1.1 hf,
    fun fuel hf => elements_isList hB1.1 hf, swap_swap hswap, swap_swap hswap⟩
  · rw [GetSize, GetSize, hA1.1.2, hB.1.2]
  · rw [GetSize, GetSize, hB1.1.2, hA.1.2]

theorem swap_exchanges_and_is_involutive_witness :
    ∃ m1, swap (exMem 0) 0 8 = .ret m1 ∧
      elements 3 m1 0 = .ret [1, 2, 3] ∧ GetSize m1 0 = 3 ∧
      elements 3 m1 8 = .ret [1, 2] ∧ GetSize m1 8 = 2 ∧
      swap m1 0 8 = .ret (exMem 0) := by
  obtain ⟨m1, h1, -, -, -, h2, h3, h4, h5, h6, -⟩ :=
    swap_exchanges_and_is_involutive (exMem 0) 0 8 _ _ (exMem_owns_0 0) (exMem_owns_8 0)
      (fun _ => by unfold Apart; decide)
  exact ⟨m1, h1, h4 3 (by decide), h2, h5 3 (by decide), h3, h6⟩

/-- C13: the strong guarantee of `InsertAfter`.  Let `p` be a valid position
of the list `L` (the `k`-th node of the chain that starts with the sentinel).
When creating the new node fails (`new Node(value, ...)` throws: no memory, or
a throwing copy of the element), `InsertAfter(p, x)` throws, and the memory it
leaves is the memory it was called in: no node, link or size has changed. -/
theorem InsertAfter_strong_guarantee (m : Mem α) (L : Nat) (cells : List (Nat × α)) (x : α)
    (k p : Nat) (h : Owns m L cells) (hpos : (L :: cells.map Prod.fst)[k]? = some p)
    (hq : m.quota = 0) :
    InsertAfter m L ⟨some p⟩ x = .throw m := by
  obtain ⟨n, hn⟩ := node_of_position h hpos
  simp [InsertAfter, hn, new_Node, hq]

theorem InsertAfter_strong_guarantee_witness :
    InsertAfter (exMem 0) 8 ⟨some 10⟩ 7 = .throw (exMem 0) :=
  InsertAfter_strong_guarantee (exMem 0) 8 _ 7 2 10 (exMem_owns_8 0) rfl rfl

/-- C14: for a list `L` in any state, `Clear()` returns (given fuel for its
loop), and afterwards `IsEmpty()` is `true`, `GetSize()` is `0`, and `begin()`
is the null iterator `end()`. -/
theorem Clear_makes_empty (m : Mem α) (L : Nat) (cells : List (Nat × α)) (fuel : Nat)
    (h : Owns m L cells) (hf : cells.length ≤ fuel) :
    ∃ m', Clear fuel m L = .ret m' ∧ IsEmpty m' L = true ∧ GetSize m' L = 0 ∧
      begin m' L = .ret end_ ∧ Owns m' L [] := by
  obtain ⟨m', hclear, hown, -⟩ := Clear_owns h hf
  obtain ⟨hd, hhd, hs⟩ := hown.1.1
  have hsize := hown.1.2
  have hnext : hd.next_node = none := hs
  have hsize' : m'.size_ L = 0 := hsize
  refine ⟨m', hclear, by simp [IsEmpty, hsize'], hsize', ?_, hown⟩
  simp [begin, hhd, hnext, end_]

theorem Clear_makes_empty_witness :
    ∃ m', Clear 3 (exMem 0) 8 = .ret m' ∧ IsEmpty m' 8 = true ∧ GetSize m' 8 = 0 ∧
      begin m' 8 = .ret end_ := by
  obtain ⟨m', h1, h2, h3, h4, -⟩ :=
    Clear_makes_empty (exMem 0) 8 _ 3 (exMem_owns_8 0) (by decide)
  exact ⟨m', h1, h2, h3, h4⟩

/-- C15: for a non-empty list `L`, `PopFront()` returns; it removes exactly
the first element, the remaining elements keep their order, and the size drops
by exactly one. -/
theorem PopFront_removes_first (m : Mem α) (L : Nat) (cells : List (Nat × α))
    (h : Owns m L cells) (hne : cells ≠ []) :
    ∃ m', PopFront m L = .ret m' ∧ Owns m' L cells.tail ∧
      GetSize m' L + 1 = GetSize m L ∧
      ∀ fuel, cells.length ≤ fuel → elements fuel m' L = .ret (cells.map Prod.snd).tail := by
  cases cells with
  | nil => exact absurd rfl hne
  | cons c rest =>
    obtain ⟨e, w⟩ := c
    obtain ⟨m', hpop, hown, -⟩ := PopFront_owns h
    refine ⟨m', hpop, hown, ?_, fun fuel hf => ?_⟩
    · rw [GetSize, GetSize, hown.1.2, h.1.2]; rfl
    · exact elements_isList hown.1 (by simp at hf ⊢; omega)

theorem PopFront_removes_first_witness :
    ∃ m', PopFront (exMem 0) 8 = .ret m' ∧ GetSize m' 8 + 1 = GetSize (exMem 0) 8 ∧
      elements 3 m' 8 = .ret [2, 3] := by
  obtain ⟨m', h1, -, h2, h3⟩ :=
    PopFront_removes_first (exMem 0) 8 _ (exMem_owns_8 0) (by decide)
  exact ⟨m', h1, h2, h3 3 (by decide)⟩

/-- C16: self-assignment is a no-op: for every list object `A`, in every
memory, `A = A` returns at once and leaves the memory as it was, so the
elements and the size of `A` are unchanged. -/
theorem self_assignment_is_noop [Inhabited α] (fuel : Nat) (m : Mem α) (A : Nat) :
    operator_assign fuel m A A = .ret m := by
  simp [operator_assign]

/-! ## More fuel does not change a result -/

theorem Clear_loop_mono {f : Nat} :
    ∀ {m : Mem α} {p : Option Nat} {r : Res (Mem α) (Mem α)} (k : Nat),
    Clear_loop f m p = r → r ≠ .timeout → Clear_loop (f + k) m p = r := by
  induction f with
  | zero =>
    intro m p r k h hr
    cases p with
    | none =>
      have h0 : Clear_loop (0 + k) m none = .ret m := by cases k <;> rfl
      rw [h0, ← h]; rfl
    | some a => exact absurd (h ▸ rfl) hr
  | succ f ih =>
    intro m p r k h hr
    have hk : f + 1 + k = (f + k) + 1 := by omega
    rw [hk]
    cases p with
    | none => rw [← h]; rfl
    | some a =>
      simp only [Clear_loop] at h ⊢
      cases hn : m.node a with
      | none => rw [hn] at h; exact h
      | some n =>
        rw [hn] at h
        exact ih k h hr

theorem Clear_mono {f : Nat} {m : Mem α} {t : Nat} {r : Res (Mem α) (Mem α)} (k : Nat)
    (h : Clear f m t = r) (hr : r ≠ .timeout) : Clear (f + k) m t = r := by
  simp only [Clear] at h ⊢
  cases hn : m.node t with
  | none => rw [hn] at h; exact h
  | some hd =>
    rw [hn] at h
    simp only [] at h ⊢
    cases hl : Clear_loop f m hd.next_node with
    | timeout =>
      rw [hl] at h
      exact absurd h.symm hr
    | ret m1 =>
      rw [Clear_loop_mono k hl (by simp)]
      rw [hl] at h
      exact h
    | throw s =>
      rw [Clear_loop_mono k hl (by simp)]
      rw [hl] at h
      exact h
    | ub =>
      rw [Clear_loop_mono k hl (by simp)]
      rw [hl] at h
      exact h

theorem dtor_mono {f : Nat} {m : Mem α} {t : Nat} {r : Res (Mem α) (Mem α)} (k : Nat)
    (h : dtor f m t = r) (hr : r ≠ .timeout) : dtor (f + k) m t = r := by
  simp only [dtor] at h ⊢
  cases hl : Clear f m t with
  | timeout =>
    rw [hl] at h
    exact absurd h.symm hr
  | ret m1 =>
    rw [Clear_mono k hl (by simp)]
    rw [hl] at h
    exact h
  | throw s =>
    rw [Clear_mono k hl (by simp)]
    rw [hl] at h
    exact h
  | ub =>
    rw [Clear_mono k hl (by simp)]
    rw [hl] at h
    exact h

theorem read_range_mono {f : Nat} :
    ∀ {m : Mem α} {first last : BasicIterator} {r : Res (Mem α) (List α)} (k : Nat),
    read_range f m first last = r → r ≠ .timeout → read_range (f + k) m first last = r := by
  induction f with
  | zero =>
    intro m first last r k h hr
    by_cases he : first.eq last = true
    · have h0 : read_range (0 + k) m first last = .ret [] := by
        cases k <;> simp [read_range, he]
      rw [h0, ← h]
      simp [read_range, he]
    · simp only [read_range, if_neg he] at h
      exact absurd h.symm hr
  | succ f ih =>
    intro m first last r k h hr
    have hk : f + 1 + k = (f + k) + 1 := by omega
    rw [hk]
    simp only [read_range] at h ⊢
    by_cases he : first.eq last = true
    · rw [if_pos he] at h ⊢; exact h
    · rw [if_neg he] at h ⊢
      cases hd : first.deref m with
      | ret v =>
        rw [hd] at h
        simp only [] at h ⊢
        cases hi : first.incr m with
        | ret next =>
          rw [hi] at h
          simp only [] at h ⊢
          cases hrec : read_range f m next last with
          | timeout =>
            rw [hrec] at h
            exact absurd h.symm hr
          | ret vs =>
            rw [ih k hrec (by simp)]
            rw [hrec] at h
            exact h
          | throw s =>
            rw [ih k hrec (by simp)]
            rw [hrec] at h
            exact h
          | ub =>
            rw [ih k hrec (by simp)]
            rw [hrec] at h
            exact h
        | throw s => rw [hi] at h; exact h
        | ub => rw [hi] at h; exact h
        | timeout => rw [hi] at h; exact h
      | throw s => rw [hd] at h; exact h
      | ub => rw [hd] at h; exact h
      | timeout => rw [hd] at h; exact h

theorem vector_ctor_mono {f : Nat} {m : Mem α} {first last : BasicIterator}
    {r : Res (Mem α) (Mem α × List α)} (k : Nat) (h : vector_ctor f m first last = r)
    (hr : r ≠ .timeout) : vector_ctor (f + k) m first last = r := by
  simp only [vector_ctor] at h ⊢
  cases hl : read_range f m first last with
  | timeout =>
    rw [hl] at h
    exact absurd h.symm hr
  | ret vs =>
    rw [read_range_mono k hl (by simp)]
    rw [hl] at h
    exact h
  | throw s =>
    rw [read_range_mono k hl (by simp)]
    rw [hl] at h
    exact h
  | ub =>
    rw [read_range_mono k hl (by simp)]
    rw [hl] at h
    exact h

theorem ctor_range_mono [Inhabited α] {f : Nat} {m : Mem α} {src : List α}
    {r : Res (Mem α) (Mem α × Nat)} (k : Nat) (h : ctor_range f m src = r)
    (hr : r ≠ .timeout) : ctor_range (f + k) m src = r := by
  simp only [ctor_range] at h ⊢
  cases hl : ctor_range_loop (ctor_default m).1 (ctor_default m).2 src with
  | ret m1 => rw [hl] at h; exact h
  | ub => rw [hl] at h; exact h
  | timeout => rw [hl] at h; exact h
  | throw s =>
    rw [hl] at h
    simp only [] at h ⊢
    cases hd : dtor f s (ctor_default m).2 with
    | timeout =>
      rw [hd] at h
      exact absurd h.symm hr
    | ret s1 =>
      rw [dtor_mono k hd (by simp)]
      rw [hd] at h
      exact h
    | throw s1 =>
      rw [dtor_mono k hd (by simp)]
      rw [hd] at h
      exact h
    | ub =>
      rw [dtor_mono k hd (by simp)]
      rw [hd] at h
      exact h

theorem operator_assign_mono [Inhabited α] {f : Nat} {m : Mem α} {A B : Nat}
    {r : Res (Mem α) (Mem α)} (k : Nat) (h : operator_assign f m A B = r)
    (hr : r ≠ .timeout) : operator_assign (f + k) m A B = r := by
  simp only [operator_assign] at h ⊢
  by_cases hAB : A = B
  · rw [if_pos hAB] at h ⊢; exact h
  · rw [if_neg hAB] at h ⊢
    by_cases hsz : m.size_ B = 0
    · rw [if_pos hsz] at h ⊢
      exact Clear_mono k h hr
    · rw [if_neg hsz] at h ⊢
      cases hb : begin m B with
      | throw s => rw [hb] at h; exact h
      | ub => rw [hb] at h; exact h
      | timeout => rw [hb] at h; exact h
      | ret first =>
        rw [hb] at h
        simp only [] at h ⊢
        cases hv : vector_ctor f m first end_ with
        | timeout =>
          rw [hv] at h
          exact absurd h.symm hr
        | throw s =>
          rw [vector_ctor_mono k hv (by simp)]
          rw [hv] at h
          exact h
        | ub =>
          rw [vector_ctor_mono k hv (by simp)]
          rw [hv] at h
          exact h
        | ret mb =>
          rw [vector_ctor_mono k hv (by simp)]
          rw [hv] at h
          obtain ⟨m1, buffer⟩ := mb
          simp only [] at h ⊢
          cases hc : ctor_range f m1 buffer.reverse with
          | timeout =>
            rw [hc] at h
            exact absurd h.symm hr
          | throw s =>
            rw [ctor_range_mono k hc (by simp)]
            rw [hc] at h
            exact h
          | ub =>
            rw [ctor_range_mono k hc (by simp)]
            rw [hc] at h
            exact h
          | ret mt =>
            rw [ctor_range_mono k hc (by simp)]
            rw [hc] at h
            obtain ⟨m2, tmp⟩ := mt
            simp only [] at h ⊢
            cases hs : swap m2 A tmp with
            | ret m3 =>
              rw [hs] at h
              exact dtor_mono k h hr
            | throw s => rw [hs] at h; exact h
            | ub => rw [hs] at h; exact h
            | timeout => rw [hs] at h; exact h

/-! ## What each call touches -/

theorem touches_refl {m : Mem α} {t : Nat} {cells : List (Nat × α)} (h : Owns m t cells) :
    Touches m m t cells cells :=
  ⟨h, fun _ hc => Or.inr (List.mem_map_of_mem _ hc), fun _ _ _ _ => rfl, fun _ _ _ => rfl,
    le_refl _⟩

theorem leaves_ret {σ : Type} {s s' : σ} (h : Res.leaves (Res.ret s : Res σ σ) s') : s = s' := by
  rcases h with h | h
  · cases h; rfl
  · cases h

theorem leaves_throw {σ : Type} {s s' : σ} (h : Res.leaves (Res.throw s : Res σ σ) s') :
    s = s' := by
  rcases h with h | h
  · cases h
  · cases h; rfl

theorem PushFront_touches {m m' : Mem α} {t : Nat} {cells : List (Nat × α)} {x : α}
    (h : Owns m t cells) (hl : Res.leaves (PushFront m t x) m') :
    ∃ new, Touches m m' t cells new := by
  by_cases hq : m.quota = 0
  · obtain ⟨hd, hhd, -⟩ := h.1.1
    rw [PushFront_throw hhd hq] at hl
    have := leaves_throw hl
    subst this
    exact ⟨cells, touches_refl h⟩
  · obtain ⟨m1, hpush, hown, hnode, hsize, hbrk, -⟩ :=
      PushFront_owns (x := x) h (Nat.pos_of_ne_zero hq)
    rw [hpush] at hl
    have := leaves_ret hl
    subst this
    refine ⟨_, hown, ?_, fun a ha hat _ => hnode a ha hat, fun a _ hat => hsize a hat,
      by omega⟩
    intro c hc
    rcases List.mem_cons.mp hc with rfl | hc
    · exact Or.inl (le_refl _)
    · exact Or.inr (List.mem_map_of_mem _ hc)

theorem PopFront_touches {m m' : Mem α} {t : Nat} {cells : List (Nat × α)}
    (h : Owns m t cells) (hl : Res.leaves (PopFront m t) m') :
    ∃ new, Touches m m' t cells new := by
  cases cells with
  | nil =>
    have hsz : m.size_ t = 0 := h.1.2
    simp [PopFront, hsz, Res.leaves] at hl
  | cons c rest =>
    obtain ⟨e, w⟩ := c
    obtain ⟨m1, hpop, hown, hnode, hsize, hbrk, -⟩ := PopFront_owns h
    rw [hpop] at hl
    have := leaves_ret hl
    subst this
    refine ⟨rest, hown, fun c hc => Or.inr (List.mem_map_of_mem _ (List.mem_cons_of_mem _ hc)),
      fun a _ hat hnot => hnode a hat (fun e' => hnot (by simp [e'])),
      fun a _ hat => hsize a hat, by omega⟩

theorem Clear_touches {m m' : Mem α} {t fuel : Nat} {cells : List (Nat × α)}
    (h : Owns m t cells) (hl : Res.leaves (Clear fuel m t) m') :
    ∃ new, Touches m m' t cells new := by
  have hfu : cells.length ≤ fuel + cells.length := by omega
  obtain ⟨m1, hclear, hown, hnode, hsize, hbrk, -⟩ := Clear_owns h hfu
  have hm : m1 = m' := by
    rcases hl with hl | hl
    · have := Clear_mono cells.length hl (by simp)
      rw [hclear] at this
      cases this; rfl
    · have := Clear_mono cells.length hl (by simp)
      rw [hclear] at this
      cases this
  subst hm
  exact ⟨[], hown, by simp, fun a _ hat hnot => hnode a hat hnot, fun a _ hat => hsize a hat,
    by omega⟩

theorem split_of_valid {m : Mem α} {t p : Nat} {cells cells' : List (Nat × α)}
    {head_ : Node α} (h : Owns m t cells) (hhead : m.node t = some head_)
    (h' : Seg m.node head_.next_node cells' none) (hp : p ∈ t :: cells'.map Prod.fst) :
    p = t ∨ ∃ pre post v, cells = pre ++ (p, v) :: post := by
  obtain ⟨hd, hhd, hs⟩ := h.1.1
  rw [hhead] at hhd
  cases hhd
  have hcc := seg_unique h' hs
  subst hcc
  rcases List.mem_cons.mp hp with hp | hp
  · exact Or.inl hp
  · obtain ⟨c, hc, hcp⟩ := List.mem_map.mp hp
    obtain ⟨pre, post, hsplit⟩ := List.append_of_mem hc
    refine Or.inr ⟨pre, post, c.2, ?_⟩
    rw [hsplit, ← hcp]

theorem InsertAfter_touches {m m' : Mem α} {t : Nat} {cells : List (Nat × α)}
    {pos : BasicIterator} {x : α} (h : Owns m t cells) (hv : ValidPos m t pos)
    (hl : Res.leaves ((InsertAfter m t pos x).map Prod.fst) m') :
    ∃ new, Touches m m' t cells new := by
  obtain ⟨head_, cells', p, hhead, hlist, hpos, hp⟩ := hv
  have hpos' : pos = ⟨some p⟩ := by
    cases pos
    simp only at hpos
    rw [hpos]
  subst hpos'
  rcases split_of_valid h hhead hlist hp with hpt | ⟨pre, post, v, hsplit⟩
  · subst hpt
    rw [show (⟨some p⟩ : BasicIterator) = before_begin p from rfl,
      InsertAfter_before_begin_eq] at hl
    exact PushFront_touches h hl
  · subst hsplit
    by_cases hq : m.quota = 0
    · obtain ⟨nx, hn⟩ := node_of_mem_owns (c := (p, v)) h (by simp)
      have hthrow : InsertAfter m t ⟨some p⟩ x = .throw m := by
        simp [InsertAfter, hn, new_Node, hq]
      rw [hthrow] at hl
      have hl' : Res.leaves (Res.throw m) m' := hl
      have := leaves_throw hl'
      subst this
      exact ⟨_, touches_refl h⟩
    · obtain ⟨m1, hins, hown, hnode, hsize, hbrk, -⟩ :=
        InsertAfter_inner (x := x) h (Nat.pos_of_ne_zero hq)
      rw [hins] at hl
      have hl' : Res.leaves (Res.ret m1) m' := hl
      have := leaves_ret hl'
      subst this
      refine ⟨_, hown, ?_, fun a ha _ hnot => hnode a ha (fun e' => hnot (by simp [e'])),
        fun a _ hat => hsize a hat, by omega⟩
      intro c hc
      simp only [List.mem_append, List.mem_cons] at hc
      rcases hc with hc | rfl | rfl | hc
      · exact Or.inr (List.mem_map_of_mem _ (by simp [hc]))
      · exact Or.inr (by simp)
      · exact Or.inl (le_refl _)
      · exact Or.inr (List.mem_map_of_mem _ (by simp [hc]))

theorem EraseAfter_touches {m m' : Mem α} {t : Nat} {cells : List (Nat × α)}
    {pos : BasicIterator} (h : Owns m t cells) (hv : ValidPos m t pos)
    (hl : Res.leaves ((EraseAfter m t pos).map Prod.fst) m') :
    ∃ new, Touches m m' t cells new := by
  obtain ⟨head_, cells', p, hhead, hlist, hpos, hp⟩ := hv
  have hpos' : pos = ⟨some p⟩ := by
    cases pos
    simp only at hpos
    rw [hpos]
  subst hpos'
  rcases split_of_valid h hhead hlist hp with hpt | ⟨pre, post, v, hsplit⟩
  · subst hpt
    cases cells with
    | nil =>
      obtain ⟨hd, hhd, hs⟩ := h.1.1
      have hnext : hd.next_node = none := hs
      simp [EraseAfter, hhd, hnext, Res.map, Res.leaves] at hl
    | cons c rest =>
      obtain ⟨e, w⟩ := c
      obtain ⟨m1, hers, hpop⟩ := EraseAfter_head h
      rw [show (⟨some p⟩ : BasicIterator) = before_begin p from rfl, hers] at hl
      have hl' : Res.leaves (Res.ret m1) m' := hl
      have := leaves_ret hl'
      subst this
      exact PopFront_touches h (Or.inl hpop)
  · subst hsplit
    cases post with
    | nil =>
      obtain ⟨hd, hhd, hs⟩ := h.1.1
      obtain ⟨r, -, -, nx, hn, hend⟩ := seg_append.mp hs
      have hnx : nx = none := hend
      have hn' : m.node p = some ⟨v, none⟩ := by rw [← hnx]; exact hn
      simp [EraseAfter, hn', Res.map, Res.leaves] at hl
    | cons c post' =>
      obtain ⟨e, w⟩ := c
      obtain ⟨m1, hers, hown, hnode, hsize, hbrk, -⟩ := EraseAfter_inner h
      rw [hers] at hl
      have hl' : Res.leaves (Res.ret m1) m' := hl
      have := leaves_ret hl'
      subst this
      refine ⟨_, hown, ?_, fun a _ _ hnot => hnode a (fun e' => hnot (by simp [e']))
        (fun e' => hnot (by simp [e'])), fun a _ hat => hsize a hat, by omega⟩
      intro c hc
      refine Or.inr (List.mem_map_of_mem _ ?_)
      simp only [List.mem_append, List.mem_cons] at hc ⊢
      tauto

theorem operator_assign_touches [Inhabited α] {m m' : Mem α} {A B fuel : Nat}
    {la lb : List (Nat × α)} (hA : Owns m A la) (hB : Owns m B lb)
    (hap : A ≠ B → Apart A B la lb) (hl : Res.leaves (operator_assign fuel m A B) m') :
    ∃ new, Touches m m' A la new := by
  by_cases hAB : A = B
  · subst hAB
    have hself : operator_assign fuel m A A = .ret m := by simp [operator_assign]
    rw [hself] at hl
    have := leaves_ret hl
    subst this
    exact ⟨la, touches_refl hA⟩
  · have hfa : la.length ≤ fuel + (la.length + lb.length) := by omega
    have hfb : lb.length ≤ fuel + (la.length + lb.length) := by omega
    have hbig : ∀ r, operator_assign (fuel + (la.length + lb.length)) m A B = r →
        r ≠ .timeout → operator_assign fuel m A B = .ret m' ∨
          operator_assign fuel m A B = .throw m' → r = .ret m' ∨ r = .throw m' := by
      intro r hr _ hl'
      rcases hl' with hl' | hl'
      · have := operator_assign_mono (la.length + lb.length) hl' (by simp)
        rw [hr] at this
        exact Or.inl this
      · have := operator_assign_mono (la.length + lb.length) hl' (by simp)
        rw [hr] at this
        exact Or.inr this
    by_cases hne : lb = []
    · subst hne
      have hszB : m.size_ B = 0 := by rw [hB.1.2]; rfl
      obtain ⟨m1, hclear, hown, hnode, hsize, hbrk, -⟩ := Clear_owns hA hfa
      have hop : operator_assign (fuel + (la.length + ([] : List (Nat × α)).length)) m A B
          = .ret m1 := by
        simp only [operator_assign, if_neg hAB, if_pos hszB, hclear]
      rcases hbig _ hop (by simp) hl with h1 | h1
      · cases h1
        exact ⟨[], hown, by simp, fun a _ hat hnot => hnode a hat hnot,
          fun a _ hat => hsize a hat, by omega⟩
      · cases h1
    · by_cases hq : lb.length < m.quota
      · obtain ⟨m1, la', hop, hown, -, -, hnew, hnode, hsize, hbrk⟩ :=
          operator_assign_ret_frame _ hA hB (hap hAB) hne hq hfa hfb
        rcases hbig _ hop (by simp) hl with h1 | h1
        · cases h1
          exact ⟨la', hown, fun c hc => Or.inl (hnew c hc), hnode, hsize, hbrk⟩
        · cases h1
      · obtain ⟨m1, hop, hown, -, hnode, hsize, hbrk⟩ :=
          operator_assign_throw_frame hA hB (hap hAB) hne (by omega) hfb
        rcases hbig _ hop (by simp) hl with h1 | h1
        · cases h1
        · cases h1
          exact ⟨la, hown, fun c hc => Or.inr (List.mem_map_of_mem _ hc),
            fun a ha _ _ => hnode a ha, fun a ha _ => hsize a ha, hbrk⟩

/-! ## The invariant of the reachable memories -/

theorem apart_symm {A B : Nat} {la lb : List (Nat × α)} (h : Apart A B la lb) :
    Apart B A lb la :=
  ⟨fun e => h.1 e.symm, h.2.2.1, h.2.1, fun a ha hb => h.2.2.2 a hb ha⟩

theorem own_head_not_mem {m : Mem α} {l : Nat} {cells : List (Nat × α)} (h : Owns m l cells) :
    l ∉ cells.map Prod.fst := by
  obtain ⟨hd, hhd, hs⟩ := h.1.1
  exact seg_not_mem hhd hs

theorem inv_step_one {m m' : Mem α} {objs : List Nat} {cellsOf : Nat → List (Nat × α)}
    {t : Nat} {new : List (Nat × α)} (hinv : InvWith m objs cellsOf) (ht : t ∈ objs)
    (hto : Touches m m' t (cellsOf t) new) :
    InvWith m' objs (fun l => if l = t then new else cellsOf l) := by
  obtain ⟨hown, hapart⟩ := hinv
  obtain ⟨hnew_own, horigin, hnode, hsize, hbrk⟩ := hto
  have apart_new : ∀ l ∈ objs, l ≠ t → Apart t l new (cellsOf l) := by
    intro l hl hlt
    have hold := hapart t ht l hl (Ne.symm hlt)
    refine ⟨Ne.symm hlt, hold.2.1, ?_, ?_⟩
    · intro hmem
      obtain ⟨c, hc, hcl⟩ := List.mem_map.mp hmem
      rcases horigin c hc with h1 | h1
      · have := (hown l hl).2.1
        omega
      · rw [hcl] at h1
        exact hold.2.2.1 h1
    · intro a ha hb
      obtain ⟨c, hc, hca⟩ := List.mem_map.mp ha
      rcases horigin c hc with h1 | h1
      · obtain ⟨d, hd, hda⟩ := List.mem_map.mp hb
        have := (hown l hl).2.2 d hd
        omega
      · rw [hca] at h1
        exact hold.2.2.2 a h1 hb
  constructor
  · intro l hl
    by_cases hlt : l = t
    · simp only [hlt, if_true]
      exact hnew_own
    · simp only [if_neg hlt]
      have hold := hapart l hl t ht hlt
      have hol := hown l hl
      refine owns_frame hol (hnode l hol.2.1 hlt hold.2.1) (fun c hc => ?_)
        (hsize l hol.2.1 hlt) hbrk
      have hcm : c.1 ∈ (cellsOf l).map Prod.fst := List.mem_map_of_mem _ hc
      exact hnode c.1 (hol.2.2 c hc) (fun e => hold.2.2.1 (e ▸ hcm)) (hold.2.2.2 c.1 hcm)
  · intro l1 hl1 l2 hl2 hne
    by_cases h1 : l1 = t
    · have h2 : l2 ≠ t := fun e => hne (h1.trans e.symm)
      simp only [h1, if_true, if_neg h2]
      exact apart_new l2 hl2 h2
    · by_cases h2 : l2 = t
      · simp only [h2, if_true, if_neg h1]
        exact apart_symm (apart_new l1 hl1 h1)
      · simp only [if_neg h1, if_neg h2]
        exact hapart l1 hl1 l2 hl2 hne

theorem inv_step_ctor [Inhabited α] {m : Mem α} {objs : List Nat}
    {cellsOf : Nat → List (Nat × α)} (hinv : InvWith m objs cellsOf) :
    InvWith (ctor_default m).1 ((ctor_default m).2 :: objs)
      (fun l => if l = m.brk then [] else cellsOf l) := by
  obtain ⟨hown, hapart⟩ := hinv
  obtain ⟨h0, ht, hnode0, hsize0, hbrk0, -⟩ := ctor_default_owns m
  rw [ht]
  have hlt : ∀ l ∈ objs, l ≠ m.brk := fun l hl => by have := (hown l hl).2.1; omega
  have apart_new : ∀ l ∈ objs, Apart m.brk l [] (cellsOf l) := by
    intro l hl
    refine ⟨Ne.symm (hlt l hl), ?_, by simp, by simp⟩
    intro hmem
    obtain ⟨c, hc, hcl⟩ := List.mem_map.mp hmem
    have := (hown l hl).2.2 c hc
    omega
  constructor
  · intro l hl
    rcases List.mem_cons.mp hl with hl | hl
    · simp only [hl, if_true]
      exact h0
    · simp only [if_neg (hlt l hl)]
      have hol := hown l hl
      exact owns_frame hol (hnode0 l (hlt l hl))
        (fun c hc => hnode0 c.1 (by have := hol.2.2 c hc; omega)) (hsize0 l (hlt l hl))
        (by omega)
  · intro l1 hl1 l2 hl2 hne
    rcases List.mem_cons.mp hl1 with h1 | h1
    · rcases List.mem_cons.mp hl2 with h2 | h2
      · exact absurd (h1.trans h2.symm) hne
      · simp only [h1, if_true, if_neg (hlt l2 h2)]
        exact apart_new l2 h2
    · rcases List.mem_cons.mp hl2 with h2 | h2
      · simp only [h2, if_true, if_neg (hlt l1 h1)]
        exact apart_symm (apart_new l1 h1)
      · simp only [if_neg (hlt l1 h1), if_neg (hlt l2 h2)]
        exact hapart l1 h1 l2 h2 hne

theorem inv_step_swap {m m' : Mem α} {objs : List Nat} {cellsOf : Nat → List (Nat × α)}
    {A B : Nat} (hinv : InvWith m objs cellsOf) (hA : A ∈ objs) (hB : B ∈ objs)
    (hl : Res.leaves (swap m A B) m') : ∃ cellsOf', InvWith m' objs cellsOf' := by
  by_cases hAB : A = B
  · subst hAB
    obtain ⟨hd, hhd, -⟩ := (hinv.1 A hA).1.1
    rw [swap_self hhd] at hl
    have := leaves_ret hl
    subst this
    exact ⟨cellsOf, hinv⟩
  · obtain ⟨hown, hapart⟩ := hinv
    have hBA : B ≠ A := fun e => hAB e.symm
    have hold := hapart A hA B hB hAB
    obtain ⟨m1, hswap, hA1, hB1, hnode, hsize, hbrk, -⟩ :=
      swap_owns (hown A hA) (hown B hB) hAB hold.2.1 hold.2.2.1
    rw [hswap] at hl
    have := leaves_ret hl
    subst this
    -- no object is a node of any chain, and distinct objects have disjoint chains
    have F1 : ∀ u ∈ objs, ∀ v ∈ objs, u ∉ (cellsOf v).map Prod.fst := by
      intro u hu v hv
      by_cases huv : u = v
      · subst huv
        exact own_head_not_mem (hown u hu)
      · exact (hapart u hu v hv huv).2.1
    have F2 : ∀ u ∈ objs, ∀ v ∈ objs, u ≠ v →
        ∀ a ∈ (cellsOf u).map Prod.fst, a ∉ (cellsOf v).map Prod.fst :=
      fun u hu v hv huv => (hapart u hu v hv huv).2.2.2
    let σ : Nat → Nat := fun l => if l = A then B else if l = B then A else l
    have hσ_mem : ∀ l ∈ objs, σ l ∈ objs := by
      intro l hl
      show (if l = A then B else if l = B then A else l) ∈ objs
      split
      · exact hB
      · split
        · exact hA
        · exact hl
    have hσ_inj : ∀ l1 l2, l1 ≠ l2 → σ l1 ≠ σ l2 := by
      intro l1 l2 hne
      show (if l1 = A then B else if l1 = B then A else l1)
        ≠ (if l2 = A then B else if l2 = B then A else l2)
      split <;> split <;> (try split) <;> (try split) <;> simp_all <;> omega
    refine ⟨fun l => cellsOf (σ l), ?_, ?_⟩
    · intro l hl
      show Owns m1 l (cellsOf (σ l))
      by_cases h1 : l = A
      · have : σ l = B := by simp [σ, h1]
        rw [this, h1]
        exact hA1
      · by_cases h2 : l = B
        · have : σ l = A := by simp [σ, h2, hBA]
          rw [this, h2]
          exact hB1
        · have : σ l = l := by simp [σ, h1, h2]
          rw [this]
          have hol := hown l hl
          refine owns_frame hol (hnode l h1 h2) (fun c hc => ?_) (hsize l h1 h2) (by omega)
          have hcm : c.1 ∈ (cellsOf l).map Prod.fst := List.mem_map_of_mem _ hc
          exact hnode c.1 (fun e => F1 A hA l hl (e ▸ hcm)) (fun e => F1 B hB l hl (e ▸ hcm))
    · intro l1 hl1 l2 hl2 hne
      exact ⟨hne, F1 l1 hl1 _ (hσ_mem l2 hl2), F1 l2 hl2 _ (hσ_mem l1 hl1),
        F2 _ (hσ_mem l1 hl1) _ (hσ_mem l2 hl2) (hσ_inj l1 l2 hne)⟩

theorem reach_inv [Inhabited α] {m : Mem α} {objs : List Nat} (h : Reach m objs) :
    ∃ cellsOf, InvWith m objs cellsOf := by
  induction h with
  | start quota => exact ⟨fun _ => [], by simp [InvWith]⟩
  | grant quota _ ih =>
    obtain ⟨c, hown, hap⟩ := ih
    exact ⟨c, fun l hl => hown l hl, hap⟩
  | step_ctor _ ih =>
    obtain ⟨c, hc⟩ := ih
    exact ⟨_, inv_step_ctor hc⟩
  | step_PushFront l x _ hl hleaves ih =>
    obtain ⟨c, hc⟩ := ih
    obtain ⟨new, hto⟩ := PushFront_touches (hc.1 l hl) hleaves
    exact ⟨_, inv_step_one hc hl hto⟩
  | step_PopFront l _ hl hleaves ih =>
    obtain ⟨c, hc⟩ := ih
    obtain ⟨new, hto⟩ := PopFront_touches (hc.1 l hl) hleaves
    exact ⟨_, inv_step_one hc hl hto⟩
  | step_InsertAfter l pos x _ hl hv hleaves ih =>
    obtain ⟨c, hc⟩ := ih
    obtain ⟨new, hto⟩ := InsertAfter_touches (hc.1 l hl) hv hleaves
    exact ⟨_, inv_step_one hc hl hto⟩
  | step_EraseAfter l pos _ hl hv hleaves ih =>
    obtain ⟨c, hc⟩ := ih
    obtain ⟨new, hto⟩ := EraseAfter_touches (hc.1 l hl) hv hleaves
    exact ⟨_, inv_step_one hc hl hto⟩
  | step_Clear fuel l _ hl hleaves ih =>
    obtain ⟨c, hc⟩ := ih
    obtain ⟨new, hto⟩ := Clear_touches (hc.1 l hl) hleaves
    exact ⟨_, inv_step_one hc hl hto⟩
  | step_swap l1 l2 _ h1 h2 hleaves ih =>
    obtain ⟨c, hc⟩ := ih
    exact inv_step_swap hc h1 h2 hleaves
  | step_assign fuel l1 l2 _ h1 h2 hleaves ih =>
    obtain ⟨c, hc⟩ := ih
    obtain ⟨new, hto⟩ :=
      operator_assign_touches (hc.1 l1 h1) (hc.1 l2 h2) (fun hne => hc.2 l1 h1 l2 h2 hne) hleaves
    exact ⟨_, inv_step_one hc h1 hto⟩

theorem cross_weaken (pred1 pred2 : α → α → Bool)
    (hpred : ∀ x y, pred2 x y = true → pred1 x y = true) {m : Mem α} {fuel a b : Nat}
    (h : IsSuccessForAnyCrossItems fuel m a b pred1 = .ret false) :
    IsSuccessForAnyCrossItems fuel m a b pred2 = .ret false := by
  simp only [IsSuccessForAnyCrossItems] at h ⊢
  split at h
  · exact cross_loop_weaken pred1 pred2 hpred h
  · cases h

/-- C17: the size invariant.  In every memory a client reaches from no object
at all through the default constructor, `PushFront`, `PopFront`,
`InsertAfter`, `EraseAfter`, `Clear`, `swap` and the copy assignment (each
within its precondition, returning or throwing), every list object `l` is well
formed: the chain from its sentinel is a finite chain of live nodes ending in
`nullptr`, the cached `size_` is the number of these nodes, and a walk from
`begin()` to `end()` takes exactly `GetSize()` steps. -/
theorem size_is_number_of_nodes [Inhabited α] (m : Mem α) (objs : List Nat)
    (h : Reach m objs) (l : Nat) (hl : l ∈ objs) :
    ∃ cells, IsList m l cells ∧ GetSize m l = cells.length ∧
      ∀ fuel, cells.length ≤ fuel →
        ∃ vs, elements fuel m l = .ret vs ∧ vs.length = GetSize m l := by
  obtain ⟨cellsOf, hown, -⟩ := reach_inv h
  have ho := hown l hl
  refine ⟨cellsOf l, ho.1, ho.1.2, fun fuel hf => ⟨_, elements_isList ho.1 hf, ?_⟩⟩
  rw [GetSize, ho.1.2]
  simp

theorem size_is_number_of_nodes_witness :
    ∃ m : Mem Nat, PushFront (ctor_default (Mem.empty 1)).1 0 5 = .ret m ∧
      ∃ cells, IsList m 0 cells ∧ GetSize m 0 = cells.length ∧ GetSize m 0 = 1 := by
  obtain ⟨m, hpush, hown, -⟩ :=
    PushFront_owns (x := 5) (ctor_default_owns (Mem.empty 1 : Mem Nat)).1 (by decide)
  have hreach : Reach (ctor_default (Mem.empty 1 : Mem Nat)).1 [0] :=
    Reach.step_ctor (Reach.start 1)
  obtain ⟨cells, h1, h2, -⟩ :=
    size_is_number_of_nodes m [0] (Reach.step_PushFront 0 5 hreach (by simp) (Or.inl hpush)) 0
      (by simp)
  exact ⟨m, hpush, cells, h1, h2, hown.1.2⟩

/-- C18: for two distinct list objects `a` and `b` with `size(a) <= size(b)`,
`a == b` returns, and it returns `true` if and only if the elements of `a`
are the first `size(a)` elements of `b`, in order; in particular an empty
list `a` compares equal to every list `b`. -/
theorem operator_eq_tests_prefix [DecidableEq α] (m : Mem α) (A B : Nat)
    (la lb : List (Nat × α)) (fuel : Nat) (hA : IsList m A la) (hB : IsList m B lb)
    (hAB : A ≠ B) (hlen : la.length ≤ lb.length) (hf : la.length ≤ fuel) :
    ∃ r, operator_eq fuel m A B = .ret r ∧
      (r = true ↔ (lb.map Prod.snd).take la.length = la.map Prod.snd) ∧
      (la = [] → r = true) := by
  obtain ⟨hdA, hhdA, hsA⟩ := hA.1
  obtain ⟨hdB, hhdB, hsB⟩ := hB.1
  have heq := std_equal_seg hsA hsB hlen hf
  refine ⟨decide ((lb.map Prod.snd).take la.length = la.map Prod.snd), ?_, by simp, ?_⟩
  · simp [operator_eq, IsEqualByRefs, hAB, begin, hhdA, hhdB, heq]
  · intro hnil
    simp [hnil]

theorem operator_eq_tests_prefix_witness :
    operator_eq 1 (exMem 0) 6 8 = .ret true := by
  obtain ⟨r, h1, h2, -⟩ :=
    operator_eq_tests_prefix (exMem 0) 6 8 _ _ 1 (exMem_owns_6 0).1 (exMem_owns_8 0).1
      (by decide) (by decide) (by decide)
  have hr : r = true := h2.mpr (by decide)
  rw [hr] at h1
  exact h1

/-- C19: for two list objects `a` and `b`, the same object or not, of equal or
different sizes, over an element type whose `>` implies `>=` (a preorder, so
every linear order): when `a < b` returns `true`, `a <= b` returns `true`
(with the same fuel). -/
theorem operator_lt_implies_le [Preorder α] [DecidableRel (fun a b : α => a ≤ b)]
    [DecidableRel (fun a b : α => a < b)] (fuel : Nat) (m : Mem α) (a b : Nat)
    (h : operator_lt fuel m a b = .ret true) : operator_le fuel m a b = .ret true := by
  simp only [operator_lt] at h
  simp only [operator_le]
  by_cases href : IsEqualByRefs m a b = true
  · rw [if_pos href]
  · rw [if_neg href] at h ⊢
    by_cases hsz : m.size_ a = m.size_ b
    · rw [if_pos hsz] at h ⊢
      cases hres : IsSuccessForAnyCrossItems fuel m a b
          (fun val val_other => decide (val ≥ val_other)) with
      | ret r =>
        rw [hres] at h
        have hr : r = false := by
          cases r with
          | false => rfl
          | true => simp at h
        subst hr
        rw [cross_weaken (fun val val_other => decide (val ≥ val_other))
          (fun val val_other => decide (val > val_other))
          (fun x y hxy => by
            simp only [decide_eq_true_eq] at hxy ⊢
            exact le_of_lt hxy) hres]
        rfl
      | throw s => rw [hres] at h; cases h
      | ub => rw [hres] at h; cases h
      | timeout => rw [hres] at h; cases h
    · rw [if_neg hsz] at h ⊢
      exact h

theorem operator_lt_implies_le_witness :
    operator_lt 0 (exMem 0) 6 8 = .ret true ∧ operator_le 0 (exMem 0) 6 8 = .ret true :=
  ⟨rfl, operator_lt_implies_le 0 (exMem 0) 6 8 rfl⟩

/-- C20: the result of `operator<` depends on which objects are compared, not
only on their contents: for two distinct empty lists `a` and `b`, `a < b` and
`b < a` both return `true`, whereas `c < c` returns `false` for every list
object `c`. -/
theorem operator_lt_depends_on_identity [LE α] [DecidableRel (fun a b : α => a ≤ b)]
    (fuel : Nat) (m : Mem α) (a b : Nat) (ha : IsList m a []) (hb : IsList m b [])
    (hab : a ≠ b) :
    operator_lt fuel m a b = .ret true ∧ operator_lt fuel m b a = .ret true ∧
      ∀ c, operator_lt fuel m c c = .ret false := by
  have hsz : m.size_ a = m.size_ b := by rw [ha.2, hb.2]
  have hba : b ≠ a := fun e => hab e.symm
  have h1 := cross_isList (fun val val_other => decide (val ≥ val_other)) fuel ha hb (by simp)
  have h2 := cross_isList (fun val val_other => decide (val ≥ val_other)) fuel hb ha (by simp)
  refine ⟨?_, ?_, fun c => ?_⟩
  · simp only [operator_lt, IsEqualByRefs, hsz, h1]
    simp [hab]
  · simp only [operator_lt, IsEqualByRefs, hsz, h2]
    simp [hba]
  · simp [operator_lt, IsEqualByRefs]

theorem operator_lt_depends_on_identity_witness :
    operator_lt 0 (ctor_default (ctor_default (Mem.empty 0 : Mem Nat)).1).1 0 1 = .ret true ∧
    operator_lt 0 (ctor_default (ctor_default (Mem.empty 0 : Mem Nat)).1).1 1 0 = .ret true ∧
    operator_lt 0 (ctor_default (ctor_default (Mem.empty 0 : Mem Nat)).1).1 0 0 = .ret false := by
  obtain ⟨h1, h2, h3⟩ :=
    operator_lt_depends_on_identity 0 (ctor_default (ctor_default (Mem.empty 0 : Mem Nat)).1).1
      0 1 ⟨⟨⟨0, none⟩, rfl, rfl⟩, rfl⟩ ⟨⟨⟨0, none⟩, rfl, rfl⟩, rfl⟩ (by decide)
  exact ⟨h1, h2, h3 0⟩

end SingleLinkedList
